import Mathlib

/-!
Shallow embedding of the memory-management core of the Heliosly rcore kernel
(src/arcore/os/src/mm): address types, the stack/recycle physical-frame
allocator, the buddy heap, and the slab allocator layered on top of it.

Machine integers (usize/u64) are modelled as Nat with explicit reductions
modulo 2^64 wherever the Rust code can wrap in release mode.  A Rust panic
(assert failure, array index out of bounds, Option/Result unwrap failure,
or the deliberate infinite loop in VirtAddr construction) is modelled as
the value none of an Option-typed result.  All recursive functions take an
explicit fuel argument (structural recursion) so that every definition
reduces inside the kernel; each wrapper supplies a fuel that is provably
sufficient for the loop it embeds.
-/

/-- Fueled count-trailing-zeros.  For 0 < n < 2^fuel this computes the number
of trailing zero bits of n. -/
def ctzF : Nat → Nat → Nat
  | 0, _ => 64
  | f + 1, n => if n % 2 = 1 then 0 else ctzF f (n / 2) + 1

/-- Embeds u64::trailing_zeros: 64 on input 0, otherwise the index of the
least-significant set bit (inputs are always < 2^64). -/
def ctz (n : Nat) : Nat :=
  if n = 0 then 64 else ctzF 64 n

/-- Fueled binary length (number of significant bits). -/
def bitLenF : Nat → Nat → Nat
  | 0, _ => 0
  | f + 1, n => if n = 0 then 0 else bitLenF f (n / 2) + 1

/-- Embeds u64::leading_zeros: 64 minus the binary length (inputs < 2^64). -/
def clz64 (n : Nat) : Nat := 64 - bitLenF 64 n

/-- Embeds prev_power_of_two from buddyheap.rs:
1 << (usize::BITS - num.leading_zeros() - 1), the largest power of two that
is at most num (for 1 <= num < 2^64; the source never calls it on 0). -/
def prev_power_of_two (num : Nat) : Nat := 2 ^ (64 - clz64 num - 1)

/-- Embeds usize::next_power_of_two: the least power of two >= n
(n = 0 gives 1; faithful for n <= 2^63). -/
def next_power_of_two (n : Nat) : Nat :=
  if n ≤ 1 then 1 else 2 ^ (64 - clz64 (n - 1))

/-- Reinterpret a usize value (as Nat, < 2^64) as a two's-complement i64. -/
def toI64 (v : Nat) : Int := if v < 2 ^ 63 then (v : Int) else (v : Int) - 2 ^ 64

/-- Arithmetic (sign-extending) right shift of a usize by k bits, as performed
by the Rust expression (v as isize) >> k: floor division of the signed value. -/
def sar64 (v k : Nat) : Int := Int.fdiv (toI64 v) (2 ^ k)

/-- Embeds impl From usize for VirtAddr (address.rs lines 120-135).
The code computes tmp = (v as isize) >> VA_WIDTH_SV39 with VA_WIDTH_SV39 = 39
and fatally aborts (an empty infinite loop followed by an assert) unless
tmp is 0 or -1; an accepted value is stored unchanged.  none models the abort. -/
def virtAddrFromUsize (v : Nat) : Option Nat :=
  let tmp := sar64 v 39
  if tmp = 0 ∨ tmp = -1 then some v else none

/-- Modelled from the spec: the constant PAGE_SIZE_BITS lives in config.rs,
which is not part of the sources; the spec fixes 4096-byte pages (512
page-table-entry slots per page, SV39 three-level tables), so it is 12. -/
def PAGE_SIZE_BITS : Nat := 12

/-- Width of a physical page number: PA_WIDTH_SV39 - PAGE_SIZE_BITS = 44. -/
def PPN_WIDTH_SV39 : Nat := 56 - PAGE_SIZE_BITS

/-- Embeds impl From usize for PhysPageNum (address.rs lines 92-100):
asserts that (v as isize) >> 44 is 0 or -1; none models the assert failure. -/
def physPageNumFromUsize (v : Nat) : Option Nat :=
  let tmp := sar64 v PPN_WIDTH_SV39
  if tmp = 0 ∨ tmp = -1 then some v else none

/-- The uniform-bits predicate used by the spec sentence for claim C1:
bits [lo, hi) of v are uniformly 0 or uniformly 1. -/
def bitsUniform (v lo hi : Nat) : Prop :=
  (∀ i, lo ≤ i → i < hi → v.testBit i = false) ∨
  (∀ i, lo ≤ i → i < hi → v.testBit i = true)

/-- Embeds StackFrameAllocator (frame_allocator.rs lines 50-54).  The Vec of
recycled page numbers is kept with the top of the stack (the end of the Vec,
where push and pop operate) at the head of the list. -/
structure StackFrameAllocator where
  current : Nat
  end_ : Nat
  recycled : List Nat
  deriving Repr, DecidableEq

/-- Embeds StackFrameAllocator::new. -/
def StackFrameAllocator.new : StackFrameAllocator := ⟨0, 0, []⟩

/-- Embeds StackFrameAllocator::init. -/
def StackFrameAllocator.init (l r : Nat) : StackFrameAllocator := ⟨l, r, []⟩

/-- Embeds StackFrameAllocator::alloc (frame_allocator.rs lines 75-87).
The outer Option models a panic in the PhysPageNum conversion (its canonical
form assert); the inner Option is the Option of the Rust return value. -/
def StackFrameAllocator.alloc (a : StackFrameAllocator) :
    Option (Option Nat × StackFrameAllocator) :=
  match a.recycled with
  | ppn :: rest =>
    (physPageNumFromUsize ppn).map fun p => (some p, { a with recycled := rest })
  | [] =>
    if a.current = a.end_ then
      some (none, a)
    else
      (physPageNumFromUsize a.current).map fun p =>
        (some p, { a with current := (a.current + 1) % 2 ^ 64 })

/-- Embeds StackFrameAllocator::dealloc (frame_allocator.rs lines 88-97):
none models the panic on a never-allocated or doubly freed frame. -/
def StackFrameAllocator.dealloc (a : StackFrameAllocator) (ppn : Nat) :
    Option StackFrameAllocator :=
  if ppn ≥ a.current ∨ ppn ∈ a.recycled then none
  else some { a with recycled := ppn :: a.recycled }

/-- Loop body of StackFrameAllocator::alloc_contig: num iterations, each
either panics (cursor hit end_) or takes the cursor page. -/
def allocContigF : Nat → StackFrameAllocator → Option (List Nat × StackFrameAllocator)
  | 0, a => some ([], a)
  | n + 1, a =>
    if a.current = a.end_ then none
    else
      match physPageNumFromUsize a.current with
      | none => none
      | some p =>
        (allocContigF n { a with current := (a.current + 1) % 2 ^ 64 }).map
          fun r => (p :: r.1, r.2)

/-- Embeds StackFrameAllocator::alloc_contig (frame_allocator.rs lines 98-110).
none models the panic on exhaustion (or a PhysPageNum conversion failure). -/
def StackFrameAllocator.allocContig (a : StackFrameAllocator) (num : Nat) :
    Option (List Nat × StackFrameAllocator) :=
  allocContigF num a

/-- Embeds the buddy Heap state (buddyheap.rs lines 44-57).  The Rust field
free_list is an array [LinkedList; 32]; it is modelled as a total function
from class index to the list of free-block addresses in that class
(head of the Lean list = head of the intrusive list), with every array
access at a possibly out-of-range index guarded explicitly at its use site
(indexing at 32 or above is an out-of-bounds panic). -/
structure Heap where
  free_list : Nat → List Nat
  user : Nat
  allocated : Nat
  total : Nat

/-- Embeds Heap::new. -/
def Heap.new : Heap := ⟨fun _ => [], 0, 0, 0⟩

/-- Embeds the expression current_start & (!current_start + 1) on u64: the
lowest set bit of x (0 for x = 0). -/
def lowbit64 (x : Nat) : Nat := x &&& ((2 ^ 64 - x % 2 ^ 64) % 2 ^ 64)

/-- Loop body of Heap::add_to_heap (buddyheap.rs lines 102-110): greedily
carve [cur, end_) into maximal aligned power-of-two chunks and push each
onto its class list.  The fuel is an upper bound on the iteration count
(each iteration advances cur by at least 1); none models a panic, which
here can only be the out-of-bounds index free_list[c] with c >= 32. -/
def carveLoopF : Nat → (Nat → List Nat) → Nat → Nat → Nat →
    Option ((Nat → List Nat) × Nat)
  | 0, _, _, _, _ => none
  | fuel + 1, fl, cur, end_, total =>
    if cur + 8 ≤ end_ then
      let lowbit := lowbit64 cur
      let size := min lowbit (prev_power_of_two (end_ - cur))
      let c := ctz size
      if c < 32 then
        carveLoopF fuel (fun k => if k = c then cur :: fl k else fl k)
          (cur + size) end_ ((total + size) % 2 ^ 64)
      else none
    else some (fl, total)

/-- Embeds Heap::add_to_heap (buddyheap.rs lines 93-113): word-align the two
bounds, assert start <= end (none on failure), run the carve loop, and
accumulate the total capacity. -/
def Heap.addToHeap (h : Heap) (start end_ : Nat) : Option Heap :=
  let s := ((start + 8 - 1) % 2 ^ 64) &&& (2 ^ 64 - 8)
  let e := end_ &&& (2 ^ 64 - 8)
  if s ≤ e then
    match carveLoopF (e + 1) h.free_list s e 0 with
    | some (fl, tot) =>
      some { h with free_list := fl, total := (h.total + tot) % 2 ^ 64 }
    | none => none
  else none

/-- Embeds Heap::init: add_to_heap(start, start + size). -/
def Heap.init (h : Heap) (start size : Nat) : Option Heap :=
  h.addToHeap start ((start + size) % 2 ^ 64)

/-- Scan free_list for the first non-empty class in [c, 32), as the outer
loop of Heap::alloc does (fuel 32 always suffices). -/
def findFirstF : Nat → (Nat → List Nat) → Nat → Option Nat
  | 0, _, _ => none
  | fuel + 1, fl, c =>
    if c < 32 then
      if fl c ≠ [] then some c else findFirstF fuel fl (c + 1)
    else none

/-- Inner splitting loop of Heap::alloc (buddyheap.rs lines 156-166):
for j from class + n down to class + 1, pop a block from class j and push
its two halves onto class j - 1 (upper half first, so the lower half is the
new head).  The error value carries the free lists as already mutated when
the pop fails (the Rust code returns Err(()) mid-loop). -/
def splitDownF : Nat → (Nat → List Nat) → Nat →
    Except (Nat → List Nat) (Nat → List Nat)
  | 0, fl, _ => .ok fl
  | n + 1, fl, class_ =>
    let j := class_ + n + 1
    match fl j with
    | [] => .error fl
    | b :: rest =>
      let fl1 := fun k => if k = j then rest else fl k
      let fl2 := fun k =>
        if k = j - 1 then b :: ((b + 2 ^ (j - 1)) % 2 ^ 64) :: fl1 (j - 1)
        else fl1 k
      splitDownF n fl2 class_

/-- Embeds Heap::alloc (buddyheap.rs lines 146-184).  The outer Option models
the .expect panic on the final pop; the inner Option is Ok/Err (Err leaves
whatever mutations already happened in place, as &mut self does). -/
def Heap.alloc (h : Heap) (size0 align : Nat) : Option (Option Nat × Heap) :=
  let size := max (next_power_of_two size0) (max align 8)
  let class_ := ctz size
  match findFirstF 32 h.free_list class_ with
  | none => some (none, h)
  | some i =>
    match splitDownF (i - class_) h.free_list class_ with
    | .error fl1 => some (none, { h with free_list := fl1 })
    | .ok fl1 =>
      match fl1 class_ with
      | [] => none
      | b :: rest =>
        let fl2 := fun k => if k = class_ then rest else fl1 k
        if b = 0 then
          -- NonNull::new on a null pointer: Err after the pop
          some (none, { h with free_list := fl2 })
        else
          some (some b,
            { h with
                free_list := fl2
                user := (h.user + size0) % 2 ^ 64
                allocated := (h.allocated + size) % 2 ^ 64 })

/-- Coalescing loop of Heap::dealloc (buddyheap.rs lines 208-229): while the
class is < 32, search the class list for the buddy (address xor class bit);
if found unlink it, pop the list head, keep the lower address and push it one
class up, else stop.  The push one class up indexes free_list[cls + 1], which
is an out-of-bounds panic when cls + 1 = 32 (modelled as none).  Fuel 33
always suffices since cls strictly increases up to 32. -/
def coalesceF : Nat → (Nat → List Nat) → Nat → Nat → Option (Nat → List Nat)
  | 0, _, _, _ => none
  | fuel + 1, fl, ptr, cls =>
    if cls < 32 then
      let buddy := ptr ^^^ 2 ^ cls
      if buddy ∈ fl cls then
        let l2 := ((fl cls).erase buddy).tail
        let ptr2 := min ptr buddy
        if cls + 1 < 32 then
          coalesceF fuel
            (fun k => if k = cls + 1 then ptr2 :: (if k = cls then l2 else fl k)
                      else if k = cls then l2 else fl k)
            ptr2 (cls + 1)
        else none
      else some fl
    else some fl

/-- Embeds Heap::dealloc (buddyheap.rs lines 196-234): recompute the class,
push the block onto its class list (an out-of-bounds panic if the class is
32 or more), coalesce, and maintain the wrapped diagnostic counters. -/
def Heap.dealloc (h : Heap) (ptr size0 align : Nat) : Option Heap :=
  let size := max (next_power_of_two size0) (max align 8)
  let class_ := ctz size
  if class_ < 32 then
    let fl1 := fun k => if k = class_ then ptr :: h.free_list k else h.free_list k
    match coalesceF 33 fl1 ptr class_ with
    | none => none
    | some fl2 =>
      some
        { h with
            free_list := fl2
            user := (h.user + (2 ^ 64 - size0 % 2 ^ 64)) % 2 ^ 64
            allocated := (h.allocated + (2 ^ 64 - size % 2 ^ 64)) % 2 ^ 64 }
  else none

/-- Embeds FreeBlockList (slab.rs lines 179-217).  Note that push increments
len but pop does not decrement it, exactly as in the source. -/
structure FreeBlockList where
  len : Nat
  list : List Nat

/-- Embeds FreeBlockList::new(start_addr, block_size, num_of_blocks): blocks
are pushed for i = num - 1 down to 0, so the head is start_addr itself. -/
def FreeBlockList.new (start_addr block_size num_of_blocks : Nat) : FreeBlockList :=
  { len := num_of_blocks,
    list := (List.range num_of_blocks).map
      fun i => (start_addr + i * block_size) % 2 ^ 64 }

/-- Embeds Slab (slab.rs lines 126-129); the BLK_SIZE const generic is passed
to each operation as an argument bs. -/
structure Slab where
  free_block_list : FreeBlockList
  total_blocks : Nat

/-- Embeds Slab::new(start_addr, slab_size). -/
def Slab.new (start_addr slab_size bs : Nat) : Slab :=
  let num := slab_size / bs
  { free_block_list := FreeBlockList.new start_addr bs num, total_blocks := num }

/-- Embeds Slab::grow (slab.rs lines 140-147): build a fresh block list over
the new chunk, then pop each block from it and push it onto the class list
(which reverses the fresh list onto the old head). -/
def Slab.grow (s : Slab) (start_addr slab_size bs : Nat) : Slab :=
  let num := slab_size / bs
  let block_list := FreeBlockList.new start_addr bs num
  { free_block_list :=
      { len := s.free_block_list.len + num,
        list := block_list.list.foldl (fun acc b => b :: acc) s.free_block_list.list },
    total_blocks := s.total_blocks + num }

/-- Result of Slab::allocate.  ok carries the returned block, the new slab and
buddy states and (as an observation of which branch ran) whether a bulk
request was issued to the buddy heap; fail is Err(AllocError); panicked
models a panic inside the call (buddy .expect or the final pop unwrap). -/
inductive SlabAllocResult where
  | ok (addr : Nat) (s : Slab) (buddy : Heap) (grew : Bool)
  | fail (s : Slab) (buddy : Heap)
  | panicked

/-- Embeds Slab::allocate (slab.rs lines 149-169): pop a free block if there
is one; otherwise request one bulk chunk of SET_SIZE * BLK_SIZE = 64 * bs
bytes with 4096-byte alignment from the buddy heap, grow, and pop. -/
def Slab.allocate (s : Slab) (bs : Nat) (buddy : Heap) : SlabAllocResult :=
  match s.free_block_list.list with
  | b :: rest =>
    .ok b { s with free_block_list := { s.free_block_list with list := rest } }
      buddy false
  | [] =>
    match buddy.alloc (64 * bs) 4096 with
    | none => .panicked
    | some (none, buddy2) => .fail s buddy2
    | some (some ptr, buddy2) =>
      let s1 := s.grow ptr (64 * bs) bs
      match s1.free_block_list.list with
      | [] => .panicked
      | b :: rest =>
        .ok b { s1 with free_block_list := { s1.free_block_list with list := rest } }
          buddy2 true

/-- Embeds Slab::deallocate (slab.rs lines 171-176). -/
def Slab.deallocate (s : Slab) (ptr : Nat) : Slab :=
  { s with free_block_list :=
      { len := s.free_block_list.len + 1, list := ptr :: s.free_block_list.list } }

/-- Embeds the BlockSize enum of slab.rs. -/
inductive BlockSize where
  | slab64B | slab128B | slab256B | slab512B | slab1024B | slab2048B | slab4096B
  | buddyHeap
  deriving DecidableEq

/-- Embeds Layout::find_suitable_slab (slab.rs lines 56-71): class selection
by the layout size alone. -/
def find_suitable_slab (size : Nat) : BlockSize :=
  if size ≤ 64 then .slab64B
  else if size ≤ 128 then .slab128B
  else if size ≤ 256 then .slab256B
  else if size ≤ 512 then .slab512B
  else if size ≤ 1024 then .slab1024B
  else if size ≤ 2048 then .slab2048B
  else if size ≤ 4096 then .slab4096B
  else .buddyHeap

/-- Embeds Slabheap (slab.rs lines 41-52). -/
structure Slabheap where
  slab64 : Slab
  slab128 : Slab
  slab256 : Slab
  slab512 : Slab
  slab1024 : Slab
  slab2048 : Slab
  slab4096 : Slab
  buddy_heap : Heap
  used : Nat
  allocated : Nat

/-- Embeds Slabheap::new: every slab is Slab::new(0, 0) (empty). -/
def Slabheap.new : Slabheap :=
  { slab64 := Slab.new 0 0 64, slab128 := Slab.new 0 0 128,
    slab256 := Slab.new 0 0 256, slab512 := Slab.new 0 0 512,
    slab1024 := Slab.new 0 0 1024, slab2048 := Slab.new 0 0 2048,
    slab4096 := Slab.new 0 0 4096, buddy_heap := Heap.new,
    used := 0, allocated := 0 }

/-- Embeds Slabheap::init: buddy_heap.init(start, size). -/
def Slabheap.init (sh : Slabheap) (start size : Nat) : Option Slabheap :=
  (sh.buddy_heap.init start size).map fun h => { sh with buddy_heap := h }

/-- Embeds Slabheap::alloc (slab.rs lines 94-110).  Every slab arm calls
.unwrap() on the Result of Slab::allocate, so an Err(AllocError) from the
slab (and likewise from the buddy heap in the pass-through arm) is a panic,
modelled as none; the function itself never returns its Err variant. -/
def Slabheap.alloc (sh : Slabheap) (size0 align : Nat) : Option (Nat × Slabheap) :=
  let used2 := (sh.used + size0) % 2 ^ 64
  match find_suitable_slab size0 with
  | .slab64B =>
    match sh.slab64.allocate 64 sh.buddy_heap with
    | .ok addr s b _ =>
      some (addr,
        { sh with
            slab64 := s
            buddy_heap := b
            used := used2
            allocated := (sh.allocated + 64) % 2 ^ 64 })
    | _ => none
  | .slab128B =>
    match sh.slab128.allocate 128 sh.buddy_heap with
    | .ok addr s b _ =>
      some (addr,
        { sh with
            slab128 := s
            buddy_heap := b
            used := used2
            allocated := (sh.allocated + 128) % 2 ^ 64 })
    | _ => none
  | .slab256B =>
    match sh.slab256.allocate 256 sh.buddy_heap with
    | .ok addr s b _ =>
      some (addr,
        { sh with
            slab256 := s
            buddy_heap := b
            used := used2
            allocated := (sh.allocated + 256) % 2 ^ 64 })
    | _ => none
  | .slab512B =>
    match sh.slab512.allocate 512 sh.buddy_heap with
    | .ok addr s b _ =>
      some (addr,
        { sh with
            slab512 := s
            buddy_heap := b
            used := used2
            allocated := (sh.allocated + 512) % 2 ^ 64 })
    | _ => none
  | .slab1024B =>
    match sh.slab1024.allocate 1024 sh.buddy_heap with
    | .ok addr s b _ =>
      some (addr,
        { sh with
            slab1024 := s
            buddy_heap := b
            used := used2
            allocated := (sh.allocated + 1024) % 2 ^ 64 })
    | _ => none
  | .slab2048B =>
    match sh.slab2048.allocate 2048 sh.buddy_heap with
    | .ok addr s b _ =>
      some (addr,
        { sh with
            slab2048 := s
            buddy_heap := b
            used := used2
            allocated := (sh.allocated + 2048) % 2 ^ 64 })
    | _ => none
  | .slab4096B =>
    match sh.slab4096.allocate 4096 sh.buddy_heap with
    | .ok addr s b _ =>
      some (addr,
        { sh with
            slab4096 := s
            buddy_heap := b
            used := used2
            allocated := (sh.allocated + 4096) % 2 ^ 64 })
    | _ => none
  | .buddyHeap =>
    match sh.buddy_heap.alloc size0 align with
    | some (some p, b) =>
      some (p,
        { sh with
            buddy_heap := b
            used := used2
            allocated := (sh.allocated + size0) % 2 ^ 64 })
    | _ => none

/-- States of the frame allocator reachable from init l r (with l <= r and r a
usize) by any sequence of non-aborting alloc, dealloc and alloc_contig calls. -/
inductive FrameReach : StackFrameAllocator → Prop where
  | init (l r : Nat) (hlr : l ≤ r) (hr : r < 2 ^ 64) :
      FrameReach (StackFrameAllocator.init l r)
  | alloc (a : StackFrameAllocator) (res : Option Nat) (a2 : StackFrameAllocator) :
      FrameReach a → a.alloc = some (res, a2) → FrameReach a2
  | dealloc (a : StackFrameAllocator) (p : Nat) (a2 : StackFrameAllocator) :
      FrameReach a → a.dealloc p = some a2 → FrameReach a2
  | allocContig (a : StackFrameAllocator) (n : Nat) (l : List Nat)
      (a2 : StackFrameAllocator) :
      FrameReach a → a.allocContig n = some (l, a2) → FrameReach a2

/-- Invariant of the carve loop of add_to_heap, over the free lists fl with
the end bound e and the loop cursor cur: every block of class c is aligned to
2^c, ends at or before the cursor, has no same-class buddy on its list, and
satisfies its own carve equation (its size was the minimum of its address's
lowest set bit and the largest power of two fitting in the remaining span). -/
def CarveInv (e cur : Nat) (fl : Nat → List Nat) : Prop :=
  ∀ c a, a ∈ fl c → 2 ^ c ∣ a ∧ a + 2 ^ c ≤ cur ∧ (a ^^^ 2 ^ c) ∉ fl c ∧
    2 ^ c = min (lowbit64 a) (prev_power_of_two (e - a))

/-- The part of the carve invariant that alloc and dealloc rely on: class
alignment, a usize bound on the block end, and absence of same-class buddies. -/
def HeapWF (fl : Nat → List Nat) : Prop :=
  ∀ c a, a ∈ fl c → 2 ^ c ∣ a ∧ a + 2 ^ c ≤ 2 ^ 64 ∧ (a ^^^ 2 ^ c) ∉ fl c

/-- The free lists after the splitting loop of alloc has walked from class
cls + n down to cls, starting from a block B (with tail rest) on the list of
class cls + n and empty lists in between: the remnant upper halves B + 2^k
sit on the classes strictly between, and class cls still holds B in front of
its remnant. -/
def splitState (fl : Nat → List Nat) (cls n B : Nat) (rest : List Nat) :
    Nat → List Nat :=
  fun k =>
    if n ≠ 0 ∧ k = cls + n then rest
    else if n ≠ 0 ∧ k = cls then [B, B + 2 ^ cls]
    else if cls < k ∧ k < cls + n then [B + 2 ^ k]
    else fl k

/-- The free lists seen by the coalescing loop of dealloc on entry to class c,
while merging the block B (allocated from class i with tail rest) back up:
classes below c are already restored, class c holds B and its remnant buddy,
classes between c and i still hold their remnants. -/
def coalState (fl : Nat → List Nat) (i c B : Nat) (rest : List Nat) :
    Nat → List Nat :=
  fun k =>
    if k = c then (if c < i then [B, B + 2 ^ c] else B :: rest)
    else if c < k ∧ k < i then [B + 2 ^ k]
    else if k = i ∧ c < i then rest
    else fl k

/-- Run n successive 64-byte-class allocations through Slab::allocate,
recording for each one whether it issued a bulk request to the buddy heap
and how many blocks remained on the class free list afterwards.
none models a panic or an Err anywhere in the sequence. -/
def runSlab64F : Nat → Slab → Heap → Option (Slab × Heap × List (Bool × Nat))
  | 0, s, h => some (s, h, [])
  | n + 1, s, h =>
    match s.allocate 64 h with
    | .ok _ s2 h2 grew =>
      (runSlab64F n s2 h2).map
        fun r => (r.1, r.2.1, (grew, s2.free_block_list.list.length) :: r.2.2)
    | _ => none

/-- An empty 64-byte slab class, exactly as Slabheap::new builds it. -/
def c6slab : Slab := Slab.new 0 0 64

/-- A buddy heap provisioned with the 8 KiB region [0x8000, 0xA000), enough
for the two 4096-byte bulk requests of a 128-allocation run. -/
def c6heap : Heap := (Heap.new.addToHeap 0x8000 0xA000).getD Heap.new

/-- The per-allocation trace (bulk-request flag, remaining free blocks) of
128 successive 64-byte-class allocations from the empty class. -/
def c6trace : List (Bool × Nat) :=
  ((runSlab64F 128 c6slab c6heap).map fun r => r.2.2).getD []

/-- The buddy-heap state after those 128 allocations. -/
def c6finalHeap : Heap :=
  ((runSlab64F 128 c6slab c6heap).map fun r => r.2.1).getD Heap.new

/-! Numeric groundwork: characterisations of the fueled bit helpers. -/

theorem ctzF_spec : ∀ f n, 0 < n → n < 2 ^ f →
    ∃ m, m % 2 = 1 ∧ n = 2 ^ ctzF f n * m := by
  intro f
  induction f with
  | zero => intro n h1 h2; omega
  | succ f ih =>
    intro n h1 h2
    by_cases hodd : n % 2 = 1
    · exact ⟨n, hodd, by simp [ctzF, hodd]⟩
    · have h2a : n / 2 < 2 ^ f := by
        rw [pow_succ] at h2; omega
      have h1a : 0 < n / 2 := by omega
      obtain ⟨m, hm, he⟩ := ih (n / 2) h1a h2a
      refine ⟨m, hm, ?_⟩
      rw [ctzF, if_neg hodd, pow_succ]
      have hn : n = 2 * (n / 2) := by omega
      calc n = 2 * (n / 2) := hn
        _ = 2 * (2 ^ ctzF f (n / 2) * m) := by rw [← he]
        _ = 2 ^ ctzF f (n / 2) * 2 * m := by ring

theorem ctz_spec (n : Nat) (h1 : 0 < n) (h2 : n < 2 ^ 64) :
    ∃ m, m % 2 = 1 ∧ n = 2 ^ ctz n * m := by
  have : ctz n = ctzF 64 n := by
    unfold ctz; rw [if_neg (by omega)]
  rw [this]
  exact ctzF_spec 64 n h1 h2

theorem ctz_dvd (n : Nat) (h1 : 0 < n) (h2 : n < 2 ^ 64) : 2 ^ ctz n ∣ n := by
  obtain ⟨m, _, he⟩ := ctz_spec n h1 h2
  exact ⟨m, he⟩

theorem pow_eq_pow_mul_odd {c k m : Nat} (hm : m % 2 = 1) (he : 2 ^ k = 2 ^ c * m) :
    c = k ∧ m = 1 := by
  rcases Nat.lt_trichotomy c k with h | h | h
  · exfalso
    have hdvd : 2 ^ (c + 1) ∣ 2 ^ k := pow_dvd_pow 2 (by omega)
    rw [he, pow_succ] at hdvd
    have : 2 ∣ m := (Nat.mul_dvd_mul_iff_left (Nat.two_pow_pos c)).mp hdvd
    omega
  · refine ⟨h.symm ▸ rfl, ?_⟩
    subst h
    have h2 : (0:Nat) < 2 ^ c := Nat.two_pow_pos c
    have : m = 1 := by
      have := he.symm
      nlinarith [Nat.two_pow_pos c]
    exact this
  · exfalso
    have hdvd : 2 ^ (k + 1) ∣ 2 ^ c := pow_dvd_pow 2 (by omega)
    have : 2 ^ (k + 1) ∣ 2 ^ k := by
      rw [he]
      exact hdvd.trans ⟨m, rfl⟩
    have h1 := Nat.le_of_dvd (Nat.two_pow_pos k) this
    have h2 : (2:Nat) ^ k < 2 ^ (k + 1) := by
      exact Nat.pow_lt_pow_right (by omega) (by omega)
    omega

theorem ctz_two_pow (k : Nat) (hk : k < 64) : ctz (2 ^ k) = k := by
  obtain ⟨m, hm, he⟩ := ctz_spec (2 ^ k) (Nat.two_pow_pos k)
    (Nat.pow_lt_pow_right (by omega) hk)
  exact (pow_eq_pow_mul_odd hm he).1

theorem le_ctz_of_pow_dvd {k n : Nat} (h : 2 ^ k ∣ n) (h1 : 0 < n) (h2 : n < 2 ^ 64) :
    k ≤ ctz n := by
  obtain ⟨m, hm, he⟩ := ctz_spec n h1 h2
  by_contra hlt
  set c := ctz n with hc
  have hdvd : 2 ^ (c + 1) ∣ n := (pow_dvd_pow 2 (by omega)).trans h
  rw [he, pow_succ] at hdvd
  have : 2 ∣ m := (Nat.mul_dvd_mul_iff_left (Nat.two_pow_pos c)).mp hdvd
  omega

theorem bitLenF_bounds : ∀ f n, 0 < n → n < 2 ^ f →
    2 ^ (bitLenF f n - 1) ≤ n ∧ n < 2 ^ bitLenF f n ∧
    1 ≤ bitLenF f n ∧ bitLenF f n ≤ f := by
  intro f
  induction f with
  | zero => intro n h1 h2; omega
  | succ f ih =>
    intro n h1 h2
    rw [bitLenF, if_neg (by omega)]
    by_cases hone : n = 1
    · subst hone
      have hf : bitLenF f 0 = 0 := by cases f <;> simp [bitLenF]
      simp [hf]
    · have h1a : 0 < n / 2 := by omega
      have h2a : n / 2 < 2 ^ f := by rw [pow_succ] at h2; omega
      obtain ⟨ha, hb, hc, hd⟩ := ih (n / 2) h1a h2a
      refine ⟨?_, ?_, by omega, by omega⟩
      · have hL : (2:Nat) ^ bitLenF f (n / 2) = 2 * 2 ^ (bitLenF f (n / 2) - 1) := by
          conv_lhs => rw [show bitLenF f (n / 2) = bitLenF f (n / 2) - 1 + 1 by omega]
          rw [pow_succ]
          ring
        rw [Nat.add_sub_cancel, hL]
        omega
      · rw [pow_succ]
        omega

theorem prev_power_of_two_spec (n : Nat) (h1 : 0 < n) (h2 : n < 2 ^ 64) :
    prev_power_of_two n = 2 ^ (bitLenF 64 n - 1) ∧
    prev_power_of_two n ≤ n ∧ n < 2 * prev_power_of_two n := by
  obtain ⟨ha, hb, hc, hd⟩ := bitLenF_bounds 64 n h1 h2
  have he : prev_power_of_two n = 2 ^ (bitLenF 64 n - 1) := by
    unfold prev_power_of_two clz64
    congr 1
    omega
  refine ⟨he, he ▸ ha, ?_⟩
  rw [he]
  have : (2:Nat) ^ bitLenF 64 n = 2 * 2 ^ (bitLenF 64 n - 1) := by
    conv_lhs => rw [show bitLenF 64 n = bitLenF 64 n - 1 + 1 by omega]
    rw [pow_succ]
    ring
  omega

theorem lt_of_prev_power_of_two_eq {n c : Nat} (h1 : 0 < n) (h2 : n < 2 ^ 64)
    (he : prev_power_of_two n = 2 ^ c) : n < 2 ^ (c + 1) := by
  obtain ⟨-, -, hlt⟩ := prev_power_of_two_spec n h1 h2
  rw [he] at hlt
  calc n < 2 * 2 ^ c := hlt
    _ = 2 ^ (c + 1) := by rw [pow_succ]; ring

theorem testBit_two_pow_mul (c m i : Nat) :
    (2 ^ c * m).testBit i = (decide (c ≤ i) && m.testBit (i - c)) := by
  rw [mul_comm, ← Nat.shiftLeft_eq, Nat.testBit_shiftLeft]

theorem testBit_pred_odd {m j : Nat} (hm : m % 2 = 1) (hj : 1 ≤ j) :
    (m - 1).testBit j = m.testBit j := by
  obtain ⟨j, rfl⟩ := Nat.exists_eq_add_of_le hj
  rw [add_comm, Nat.testBit_succ, Nat.testBit_succ]
  congr 1
  omega

theorem land_neg_eq_ctz (n : Nat) (h1 : 0 < n) (h2 : n < 2 ^ 64) :
    n &&& (2 ^ 64 - n) = 2 ^ ctz n := by
  obtain ⟨m, hm, he⟩ := ctz_spec n h1 h2
  set c := ctz n with hc
  have hclt : c < 64 := by
    by_contra hge
    have hle : (2:Nat) ^ 64 ≤ 2 ^ c := Nat.pow_le_pow_right (by omega) (by omega)
    have : 2 ^ c ≤ n := Nat.le_of_dvd h1 ⟨m, he⟩
    omega
  set t := 64 - c with ht
  have htpos : 1 ≤ t := by omega
  have h64 : (2:Nat) ^ 64 = 2 ^ c * 2 ^ t := by rw [← pow_add]; congr 1; omega
  have hmlt : m < 2 ^ t := by
    by_contra hge
    have : 2 ^ c * 2 ^ t ≤ 2 ^ c * m := Nat.mul_le_mul_left _ (by omega)
    rw [← h64] at this
    omega
  have hmpos : 0 < m := by
    by_contra hz
    rw [he] at h1
    omega
  have hsub : 2 ^ 64 - n = 2 ^ c * (2 ^ t - m) := by
    rw [he, h64, Nat.mul_sub]
  have h2t : (2:Nat) ^ t % 2 = 0 := by
    have : (2:Nat) ^ t = 2 * 2 ^ (t - 1) := by
      conv_lhs => rw [show t = t - 1 + 1 by omega]
      rw [pow_succ]
      ring
    omega
  apply Nat.eq_of_testBit_eq
  intro i
  rw [Nat.testBit_land, hsub]
  conv_lhs => rw [he]
  rw [testBit_two_pow_mul, testBit_two_pow_mul, Nat.testBit_two_pow]
  rcases Nat.lt_trichotomy i c with hi | hi | hi
  · have : decide (c ≤ i) = false := by simp; omega
    rw [this]
    simp
    omega
  · subst hi
    simp [Nat.testBit_zero]
    omega
  · have hcle : decide (c ≤ i) = true := by simp; omega
    have hij : 1 ≤ i - c := by omega
    rw [hcle]
    have hstep : (2 ^ t - m).testBit (i - c) =
        (decide (i - c < t) && !((m - 1).testBit (i - c))) := by
      conv_lhs => rw [show m = m - 1 + 1 by omega]
      exact Nat.testBit_two_pow_sub_succ (by omega) (i - c)
    rw [hstep, testBit_pred_odd hm hij]
    have : decide (c = i) = false := by simp; omega
    rw [this]
    cases hb : m.testBit (i - c) <;> simp

theorem lowbit64_eq (cur : Nat) (h1 : 0 < cur) (h2 : cur < 2 ^ 64) :
    lowbit64 cur = 2 ^ ctz cur := by
  unfold lowbit64
  rw [Nat.mod_eq_of_lt h2, Nat.mod_eq_of_lt (by omega)]
  exact land_neg_eq_ctz cur h1 h2

theorem lowbit64_zero : lowbit64 0 = 0 := by decide

theorem xor_two_pow_add (q k : Nat) :
    (2 ^ (k + 1) * q) ^^^ 2 ^ k = 2 ^ (k + 1) * q + 2 ^ k := by
  apply Nat.eq_of_testBit_eq
  intro i
  rw [Nat.testBit_xor]
  have hr : 2 ^ (k + 1) * q + 2 ^ k = 2 ^ k * (2 * q + 1) := by
    rw [pow_succ]
    ring
  rw [hr, testBit_two_pow_mul, testBit_two_pow_mul, Nat.testBit_two_pow]
  rcases Nat.lt_trichotomy i k with hi | hi | hi
  · have h1 : decide (k + 1 ≤ i) = false := by simp; omega
    have h2 : decide (k ≤ i) = false := by simp; omega
    have h3 : decide (k = i) = false := by simp; omega
    rw [h1, h2, h3]
    simp
  · subst hi
    have h1 : decide (i + 1 ≤ i) = false := by simp
    rw [h1]
    simp [Nat.testBit_zero]
    omega
  · have h1 : decide (k + 1 ≤ i) = true := by simp; omega
    have h2 : decide (k ≤ i) = true := by simp; omega
    have h3 : decide (k = i) = false := by simp; omega
    rw [h1, h2, h3]
    have hik : i - k = (i - k - 1) + 1 := by omega
    rw [hik, Nat.testBit_succ]
    have : (2 * q + 1) / 2 = q := by omega
    rw [this]
    have : i - (k + 1) = i - k - 1 := by omega
    rw [this]
    cases q.testBit (i - k - 1) <;> simp

theorem xor_two_pow_of_succ_dvd {B k : Nat} (h : 2 ^ (k + 1) ∣ B) :
    B ^^^ 2 ^ k = B + 2 ^ k := by
  obtain ⟨q, rfl⟩ := h
  exact xor_two_pow_add q k

theorem xor_two_pow_of_not_succ_dvd {n k : Nat} (hk : 2 ^ k ∣ n)
    (hk1 : ¬ 2 ^ (k + 1) ∣ n) : n ^^^ 2 ^ k = n - 2 ^ k := by
  obtain ⟨m, rfl⟩ := hk
  have hm : m % 2 = 1 := by
    by_contra hodd
    have hmev : m = 2 * (m / 2) := by omega
    refine absurd ?_ hk1
    refine ⟨m / 2, ?_⟩
    conv_lhs => rw [hmev]
    rw [pow_succ]
    ring
  set q := m / 2 with hq
  have hm2 : m = 2 * q + 1 := by omega
  have hsplit : 2 ^ k * m = 2 ^ (k + 1) * q + 2 ^ k := by
    rw [hm2, pow_succ]
    ring
  rw [hsplit]
  calc (2 ^ (k + 1) * q + 2 ^ k) ^^^ 2 ^ k
      = ((2 ^ (k + 1) * q) ^^^ 2 ^ k) ^^^ 2 ^ k := by rw [xor_two_pow_add]
    _ = 2 ^ (k + 1) * q := Nat.xor_cancel_right _ _
    _ = 2 ^ (k + 1) * q + 2 ^ k - 2 ^ k := by omega

theorem xor_two_pow_ne_self (a k : Nat) : a ^^^ 2 ^ k ≠ a := by
  intro h
  have h2 : a ^^^ (a ^^^ 2 ^ k) = 2 ^ k := by
    rw [← Nat.xor_assoc, Nat.xor_self, Nat.zero_xor]
  rw [h, Nat.xor_self] at h2
  have := Nat.two_pow_pos k
  omega

theorem sar64_of_lt (v k : Nat) (h : v < 2 ^ 63) :
    sar64 v k = ((v / 2 ^ k : Nat) : Int) := by
  unfold sar64 toI64
  rw [if_pos h, Int.fdiv_eq_ediv _ (by positivity)]
  rw [show ((2:Int) ^ k) = ((2 ^ k : Nat) : Int) by push_cast; ring]
  exact (Int.ofNat_ediv v (2 ^ k)).symm

theorem sar64_of_ge (v k : Nat) (hge : 2 ^ 63 ≤ v) (h2 : v < 2 ^ 64) :
    sar64 v k = -((((2 ^ 64 - 1 - v) / 2 ^ k : Nat) : Int) + 1) := by
  unfold sar64 toI64
  rw [if_neg (by omega)]
  have hneg : (v : Int) - 2 ^ 64 = Int.negSucc (2 ^ 64 - 1 - v) := by
    rw [Int.negSucc_eq]
    omega
  rw [hneg, Int.fdiv_eq_ediv _ (by positivity),
    Int.negSucc_ediv _ (by positivity)]
  rw [show ((2:Int) ^ k) = ((2 ^ k : Nat) : Int) by push_cast; ring]
  rfl

theorem sar64_eq_zero_iff (v k : Nat) (hk : k ≤ 63) (h2 : v < 2 ^ 64) :
    sar64 v k = 0 ↔ v < 2 ^ k := by
  by_cases h : v < 2 ^ 63
  · rw [sar64_of_lt v k h, Int.natCast_eq_zero,
      Nat.div_eq_zero_iff (Nat.two_pow_pos k)]
  · rw [sar64_of_ge v k (by omega) h2]
    have hkk : (2:Nat) ^ k ≤ 2 ^ 63 := Nat.pow_le_pow_right (by omega) hk
    constructor
    · intro hh
      exfalso
      generalize (2 ^ 64 - 1 - v) / 2 ^ k = M at hh
      omega
    · intro hh
      exfalso
      omega

theorem sar64_eq_negOne_iff (v k : Nat) (hk : k ≤ 63) (h2 : v < 2 ^ 64) :
    sar64 v k = -1 ↔ 2 ^ 64 - 2 ^ k ≤ v := by
  have hkk : (2:Nat) ^ k ≤ 2 ^ 63 := Nat.pow_le_pow_right (by omega) hk
  have h63 : (2:Nat) ^ 64 = 2 * 2 ^ 63 := by rw [pow_succ]; ring
  by_cases h : v < 2 ^ 63
  · rw [sar64_of_lt v k h]
    constructor
    · intro hh
      exfalso
      generalize v / 2 ^ k = M at hh
      omega
    · intro hh
      exfalso
      omega
  · rw [sar64_of_ge v k (by omega) h2]
    constructor
    · intro hh
      have hz : ((2 ^ 64 - 1 - v) / 2 ^ k : Nat) = 0 := by omega
      have := (Nat.div_eq_zero_iff (Nat.two_pow_pos k)).mp hz
      omega
    · intro hh
      have hz : (2 ^ 64 - 1 - v) / 2 ^ k = 0 :=
        (Nat.div_eq_zero_iff (Nat.two_pow_pos k)).mpr (by omega)
      rw [hz]
      norm_num

theorem testBit_all_false_iff (v lo : Nat) (_hlo : lo ≤ 64) (h2 : v < 2 ^ 64) :
    (∀ i, lo ≤ i → i < 64 → v.testBit i = false) ↔ v < 2 ^ lo := by
  constructor
  · intro h
    by_contra hge
    have hv1 : 0 < v := by
      have := Nat.two_pow_pos lo
      omega
    obtain ⟨ha, hb, hc, hd⟩ := bitLenF_bounds 64 v hv1 h2
    set L := bitLenF 64 v with hL
    have hL1 : lo ≤ L - 1 := by
      by_contra hcon
      have : (2:Nat) ^ L ≤ 2 ^ lo := Nat.pow_le_pow_right (by omega) (by omega)
      omega
    have h2L : (2:Nat) ^ L = 2 * 2 ^ (L - 1) := by
      conv_lhs => rw [show L = L - 1 + 1 by omega]
      rw [pow_succ]
      ring
    have hdiv : v / 2 ^ (L - 1) = 1 :=
      Nat.div_eq_of_lt_le (by omega) (by omega)
    have hbit : v.testBit (L - 1) = true := by
      rw [Nat.testBit_to_div_mod, hdiv]
      simp
    have := h (L - 1) hL1 (by omega)
    rw [this] at hbit
    exact Bool.noConfusion hbit
  · intro hv i hi1 hi2
    exact Nat.testBit_lt_two_pow
      (lt_of_lt_of_le hv (Nat.pow_le_pow_right (by omega) hi1))

theorem testBit_all_true_iff (v lo : Nat) (hlo : lo ≤ 64) (h2 : v < 2 ^ 64) :
    (∀ i, lo ≤ i → i < 64 → v.testBit i = true) ↔ 2 ^ 64 - 2 ^ lo ≤ v := by
  constructor
  · intro h
    have hdiv : v / 2 ^ lo = 2 ^ (64 - lo) - 1 := by
      apply Nat.eq_of_testBit_eq
      intro j
      rw [Nat.testBit_two_pow_sub_one]
      rw [← Nat.shiftRight_eq_div_pow, Nat.testBit_shiftRight]
      by_cases hj : j < 64 - lo
      · rw [h (lo + j) (by omega) (by omega)]
        simp [hj]
      · have hfb : v.testBit (lo + j) = false := Nat.testBit_lt_two_pow
          (lt_of_lt_of_le h2 (Nat.pow_le_pow_right (by omega) (by omega)))
        rw [hfb]
        simp
        omega
    have hmul : (2 ^ (64 - lo) - 1) * 2 ^ lo = 2 ^ 64 - 2 ^ lo := by
      rw [Nat.sub_mul, one_mul, ← pow_add]
      congr 2
      omega
    have hle : v / 2 ^ lo * 2 ^ lo ≤ v := Nat.div_mul_le_self v (2 ^ lo)
    rw [hdiv, hmul] at hle
    omega
  · intro hge i hi1 hi2
    rw [Nat.testBit_to_div_mod]
    have hile : (2:Nat) ^ lo ≤ 2 ^ i := Nat.pow_le_pow_right (by omega) hi1
    have hsplit : (2:Nat) ^ 64 = 2 ^ i * 2 ^ (64 - i) := by
      rw [← pow_add]
      congr 1
      omega
    have hd1 : 2 ^ (64 - i) - 1 ≤ v / 2 ^ i := by
      rw [Nat.le_div_iff_mul_le (Nat.two_pow_pos i)]
      rw [Nat.sub_mul, one_mul, mul_comm, ← hsplit]
      omega
    have hd2 : v / 2 ^ i < 2 ^ (64 - i) := by
      rw [Nat.div_lt_iff_lt_mul (Nat.two_pow_pos i)]
      rw [mul_comm, ← hsplit]
      omega
    have hdd : v / 2 ^ i = 2 ^ (64 - i) - 1 := by omega
    have hodd : (2:Nat) ^ (64 - i) = 2 * 2 ^ (64 - i - 1) := by
      conv_lhs => rw [show 64 - i = 64 - i - 1 + 1 by omega]
      rw [pow_succ]
      ring
    rw [hdd]
    simp
    omega

/-! Support lemmas for the PhysPageNum conversion and the frame allocator. -/

theorem ppnFrom_small {p : Nat} (hp : p < 2 ^ 44) :
    physPageNumFromUsize p = some p := by
  unfold physPageNumFromUsize PPN_WIDTH_SV39 PAGE_SIZE_BITS
  rw [if_pos]
  left
  exact (sar64_eq_zero_iff p 44 (by omega) (by omega)).mpr hp

theorem ppnFrom_eq_some {v w : Nat} (h : physPageNumFromUsize v = some w) :
    w = v ∧ physPageNumFromUsize v = some v := by
  simp only [physPageNumFromUsize] at h ⊢
  by_cases hc : sar64 v PPN_WIDTH_SV39 = 0 ∨ sar64 v PPN_WIDTH_SV39 = -1
  · rw [if_pos hc] at h
    rw [if_pos hc]
    exact ⟨(Option.some.inj h).symm, rfl⟩
  · rw [if_neg hc] at h
    exact absurd h (by simp)

theorem frame_alloc_success {a : StackFrameAllocator} {f1 : Nat}
    {a1 : StackFrameAllocator} (h : a.alloc = some (some f1, a1)) :
    physPageNumFromUsize f1 = some f1 := by
  obtain ⟨cur, e, rec⟩ := a
  rcases rec with _ | ⟨p, rest⟩
  · simp only [StackFrameAllocator.alloc] at h
    by_cases hce : cur = e
    · rw [if_pos hce] at h
      simp at h
    · rw [if_neg hce] at h
      cases hp : physPageNumFromUsize cur with
      | none => rw [hp] at h; simp at h
      | some q =>
        rw [hp] at h
        simp at h
        obtain ⟨hq, -⟩ := h
        obtain ⟨hv, hsome⟩ := ppnFrom_eq_some hp
        rw [← hq, hv]
        exact hsome
  · simp only [StackFrameAllocator.alloc] at h
    cases hp : physPageNumFromUsize p with
    | none => rw [hp] at h; simp at h
    | some q =>
      rw [hp] at h
      simp at h
      obtain ⟨hq, -⟩ := h
      obtain ⟨hv, hsome⟩ := ppnFrom_eq_some hp
      rw [← hq, hv]
      exact hsome

/-- Claim C1, counterexample: the raw value 2^38 has bit 38 set and bits
[39,64) clear, so its bits [38,64) are not uniform and the claim demands a
fatal rejection; the code nevertheless accepts it (the check starts at
bit 39), storing it unchanged. -/
theorem virtAddr_claim_counterexample :
    virtAddrFromUsize (2 ^ 38) = some (2 ^ 38) ∧
    ¬ bitsUniform (2 ^ 38) 38 64 := by
  constructor
  · decide
  · intro hcl
    rcases hcl with hf | ht
    · have h38 := hf 38 (le_refl 38) (by omega)
      rw [Nat.testBit_two_pow] at h38
      simp at h38
    · have h39 := ht 39 (by omega) (by omega)
      rw [Nat.testBit_two_pow] at h39
      simp at h39

/-- Claim C1 (amended): VirtAddr construction from a raw usize aborts if and
only if the raw value's bits [39,64) (not [38,64)) are not uniformly 0 or
uniformly 1; every accepted value is stored unchanged. -/
theorem virtAddr_canonical (v : Nat) (h2 : v < 2 ^ 64) :
    (virtAddrFromUsize v = none ↔ ¬ bitsUniform v 39 64) ∧
    (∀ w, virtAddrFromUsize v = some w → w = v) := by
  have hz := sar64_eq_zero_iff v 39 (by omega) h2
  have hn := sar64_eq_negOne_iff v 39 (by omega) h2
  have hf := testBit_all_false_iff v 39 (by omega) h2
  have ht := testBit_all_true_iff v 39 (by omega) h2
  constructor
  · simp only [virtAddrFromUsize]
    by_cases hcond : sar64 v 39 = 0 ∨ sar64 v 39 = -1
    · rw [if_pos hcond]
      constructor
      · intro hcontra
        exact absurd hcontra (by simp)
      · intro hnb
        exfalso
        apply hnb
        rcases hcond with h0 | h1
        · exact Or.inl (hf.mpr (hz.mp h0))
        · exact Or.inr (ht.mpr (hn.mp h1))
    · rw [if_neg hcond]
      constructor
      · intro _ hb
        rcases hb with hb | hb
        · exact hcond (Or.inl (hz.mpr (hf.mp hb)))
        · exact hcond (Or.inr (hn.mpr (ht.mp hb)))
      · intro _
        rfl
  · intro w hw
    simp only [virtAddrFromUsize] at hw
    by_cases hcond : sar64 v 39 = 0 ∨ sar64 v 39 = -1
    · rw [if_pos hcond] at hw
      exact (Option.some.inj hw).symm
    · rw [if_neg hcond] at hw
      exact absurd hw (by simp)

/-- Witness for virtAddr_canonical at the concrete input 2^39 (a value whose
bits [39,64) are not uniform, hence rejected). -/
theorem virtAddr_canonical_w :
    (2 ^ 39 : Nat) < 2 ^ 64 ∧
    ((virtAddrFromUsize (2 ^ 39) = none ↔ ¬ bitsUniform (2 ^ 39) 39 64) ∧
     (∀ w, virtAddrFromUsize (2 ^ 39) = some w → w = 2 ^ 39)) :=
  ⟨by norm_num, virtAddr_canonical (2 ^ 39) (by norm_num)⟩

/-- Claim C9: Frame Allocator dealloc(ppn) fatally aborts if and only if ppn
is at least the current cursor or already present in the recycle list;
otherwise it pushes ppn onto the recycle list and changes nothing else. -/
theorem frame_dealloc_spec (a : StackFrameAllocator) (p : Nat) :
    (a.dealloc p = none ↔ (a.current ≤ p ∨ p ∈ a.recycled)) ∧
    (p < a.current → p ∉ a.recycled →
      a.dealloc p = some { a with recycled := p :: a.recycled }) := by
  unfold StackFrameAllocator.dealloc
  by_cases hc : p ≥ a.current ∨ p ∈ a.recycled
  · rw [if_pos hc]
    refine ⟨⟨fun _ => hc, fun _ => rfl⟩, ?_⟩
    intro h1 h2
    rcases hc with hc | hc
    · omega
    · exact absurd hc h2
  · rw [if_neg hc]
    refine ⟨⟨fun hcontra => absurd hcontra (by simp), fun hcontra => absurd hcontra hc⟩, ?_⟩
    intro _ _
    rfl

/-- Witness for frame_dealloc_spec at a concrete state: deallocating page 3
with cursor 5 and recycle list [2] succeeds and pushes 3. -/
theorem frame_dealloc_spec_w :
    (StackFrameAllocator.mk 5 10 [2]).dealloc 3 =
      some (StackFrameAllocator.mk 5 10 [3, 2]) :=
  (frame_dealloc_spec (StackFrameAllocator.mk 5 10 [2]) 3).2 (by norm_num) (by simp)

/-- Claim C7: alloc returns the most-recently-freed page when the recycle
list is non-empty (head of the stack, hence LIFO: an alloc - dealloc - alloc
round trip returns the same page), otherwise returns the cursor and
increments it, and returns the Rust value None exactly when the cursor has
reached end_page and the recycle list is empty. -/
theorem frame_alloc_behavior :
    (∀ (a : StackFrameAllocator) (p : Nat) (rest : List Nat),
        a.recycled = p :: rest → p < 2 ^ 44 →
        a.alloc = some (some p, { a with recycled := rest })) ∧
    (∀ a : StackFrameAllocator, a.recycled = [] → a.current ≠ a.end_ →
        a.current < 2 ^ 44 →
        a.alloc = some (some a.current,
          { a with current := (a.current + 1) % 2 ^ 64 })) ∧
    (∀ a : StackFrameAllocator,
        (∃ a2, a.alloc = some (none, a2)) ↔
        (a.recycled = [] ∧ a.current = a.end_)) ∧
    (∀ (a a1 a2 : StackFrameAllocator) (f1 : Nat),
        a.alloc = some (some f1, a1) → a1.dealloc f1 = some a2 →
        ∃ a3, a2.alloc = some (some f1, a3)) := by
  refine ⟨?_, ?_, ?_, ?_⟩
  · intro a p rest hr hp
    obtain ⟨cur, e, rec⟩ := a
    simp only at hr
    subst hr
    simp [StackFrameAllocator.alloc, ppnFrom_small hp]
  · intro a hr hne hp
    obtain ⟨cur, e, rec⟩ := a
    simp only at hr hne hp
    subst hr
    simp [StackFrameAllocator.alloc, if_neg hne, ppnFrom_small hp]
  · intro a
    obtain ⟨cur, e, rec⟩ := a
    constructor
    · rintro ⟨a2, ha2⟩
      rcases rec with _ | ⟨p, rest⟩
      · simp only [StackFrameAllocator.alloc] at ha2
        by_cases hce : cur = e
        · exact ⟨rfl, hce⟩
        · rw [if_neg hce] at ha2
          cases hp : physPageNumFromUsize cur with
          | none => rw [hp] at ha2; simp at ha2
          | some q => rw [hp] at ha2; simp at ha2
      · simp only [StackFrameAllocator.alloc] at ha2
        cases hp : physPageNumFromUsize p with
        | none => rw [hp] at ha2; simp at ha2
        | some q => rw [hp] at ha2; simp at ha2
    · rintro ⟨h1, h2⟩
      simp only at h1 h2
      subst h1
      subst h2
      exact ⟨StackFrameAllocator.mk cur cur [],
        by simp [StackFrameAllocator.alloc]⟩
  · intro a a1 a2 f1 halloc hde
    have hf1 : physPageNumFromUsize f1 = some f1 := frame_alloc_success halloc
    have ha2 : a2 = { a1 with recycled := f1 :: a1.recycled } := by
      unfold StackFrameAllocator.dealloc at hde
      by_cases hc : f1 ≥ a1.current ∨ f1 ∈ a1.recycled
      · rw [if_pos hc] at hde
        exact absurd hde (by simp)
      · rw [if_neg hc] at hde
        exact (Option.some.inj hde).symm
    subst ha2
    refine ⟨{ a1 with recycled := a1.recycled }, ?_⟩
    simp [StackFrameAllocator.alloc, hf1]

/-- Witness for frame_alloc_behavior: the LIFO pop at a concrete state. -/
theorem frame_alloc_behavior_w :
    (StackFrameAllocator.mk 3 10 [7]).alloc =
      some (some 7, StackFrameAllocator.mk 3 10 []) :=
  frame_alloc_behavior.1 (StackFrameAllocator.mk 3 10 [7]) 7 [] rfl (by norm_num)

theorem range_map_add_succ (c n : Nat) :
    (List.range (n + 1)).map (fun i => c + i) =
      c :: (List.range n).map (fun i => (c + 1) + i) := by
  rw [List.range_succ_eq_map, List.map_cons, List.map_map]
  have hf : ((fun i => c + i) ∘ Nat.succ) = fun i => (c + 1) + i := by
    funext i
    simp [Function.comp]
    omega
  rw [hf]
  simp

theorem allocContigF_spec : ∀ (n cur e : Nat) (rec : List Nat),
    e < 2 ^ 44 → cur ≤ e →
    (cur + n ≤ e →
      allocContigF n (StackFrameAllocator.mk cur e rec) =
        some ((List.range n).map (fun i => cur + i),
          StackFrameAllocator.mk (cur + n) e rec)) ∧
    (e < cur + n → allocContigF n (StackFrameAllocator.mk cur e rec) = none) := by
  intro n
  induction n with
  | zero =>
    intro cur e rec hend hcur
    constructor
    · intro h
      simp [allocContigF]
    · intro h
      omega
  | succ n ih =>
    intro cur e rec hend hcur
    have hlt : (2:Nat) ^ 44 < 2 ^ 64 := Nat.pow_lt_pow_right (by omega) (by omega)
    constructor
    · intro h
      have hne : cur ≠ e := by omega
      have hplt : cur < 2 ^ 44 := by omega
      have hmod : (cur + 1) % 2 ^ 64 = cur + 1 := Nat.mod_eq_of_lt (by omega)
      simp only [allocContigF, if_neg hne, ppnFrom_small hplt, hmod]
      have hih := (ih (cur + 1) e rec hend (by omega)).1 (by omega)
      rw [hih]
      simp only [Option.map_some']
      rw [range_map_add_succ]
      have hadd : cur + 1 + n = cur + (n + 1) := by omega
      rw [hadd]
    · intro h
      by_cases hne : cur = e
      · simp [allocContigF, hne]
      · have hplt : cur < 2 ^ 44 := by omega
        have hmod : (cur + 1) % 2 ^ 64 = cur + 1 := Nat.mod_eq_of_lt (by omega)
        simp only [allocContigF, if_neg hne, ppnFrom_small hplt, hmod]
        have hih := (ih (cur + 1) e rec hend (by omega)).2 (by omega)
        rw [hih]
        rfl

/-- Claim C8: alloc_contig(n) always draws n fresh pages by bumping the
cursor and never consults the recycle list: it returns the n page numbers
current, current + 1, ..., current + n - 1 (strictly increasing by 1 from
the pre-call cursor) with the recycle list untouched, and fatally aborts
exactly when the cursor would exceed end_page. -/
theorem frame_alloc_contig_spec (a : StackFrameAllocator) (n : Nat)
    (hend : a.end_ < 2 ^ 44) (hcur : a.current ≤ a.end_) :
    (a.current + n ≤ a.end_ →
      a.allocContig n = some ((List.range n).map (fun i => a.current + i),
        { a with current := a.current + n })) ∧
    (a.end_ < a.current + n → a.allocContig n = none) := by
  obtain ⟨cur, e, rec⟩ := a
  exact allocContigF_spec n cur e rec hend hcur

/-- Witness for frame_alloc_contig_spec: four contiguous pages from cursor
100 with end page 110 (the spec's own concrete scenario). -/
theorem frame_alloc_contig_spec_w :
    (StackFrameAllocator.mk 100 110 []).allocContig 4 =
      some ([100, 101, 102, 103], StackFrameAllocator.mk 104 110 []) := by
  have h := (frame_alloc_contig_spec (StackFrameAllocator.mk 100 110 []) 4
    (by norm_num) (by norm_num)).1 (by norm_num)
  simpa using h

theorem allocContigF_reach : ∀ (n cur e : Nat) (rec : List Nat)
    (l : List Nat) (a2 : StackFrameAllocator), e < 2 ^ 64 → cur ≤ e →
    allocContigF n (StackFrameAllocator.mk cur e rec) = some (l, a2) →
    a2.end_ = e ∧ a2.recycled = rec ∧ cur ≤ a2.current ∧ a2.current ≤ e := by
  intro n
  induction n with
  | zero =>
    intro cur e rec l a2 hend hcur hrun
    simp only [allocContigF] at hrun
    obtain ⟨-, ha2⟩ := Prod.mk.injEq .. ▸ Option.some.inj hrun
    rw [← ha2]
    exact ⟨rfl, rfl, le_refl _, hcur⟩
  | succ n ih =>
    intro cur e rec l a2 hend hcur hrun
    by_cases hne : cur = e
    · simp [allocContigF, hne] at hrun
    · have hmod : (cur + 1) % 2 ^ 64 = cur + 1 := Nat.mod_eq_of_lt (by omega)
      simp only [allocContigF, if_neg hne, hmod] at hrun
      cases hp : physPageNumFromUsize cur with
      | none => rw [hp] at hrun; simp at hrun
      | some q =>
        rw [hp] at hrun
        cases hrec : allocContigF n (StackFrameAllocator.mk (cur + 1) e rec) with
        | none => rw [hrec] at hrun; simp at hrun
        | some r =>
          rw [hrec] at hrun
          simp only [Option.map_some'] at hrun
          obtain ⟨-, ha2⟩ := Prod.mk.injEq .. ▸ Option.some.inj hrun
          obtain ⟨he, hr, hc1, hc2⟩ := ih (cur + 1) e rec r.1 r.2 hend (by omega)
            (by rw [hrec])
          rw [← ha2]
          exact ⟨he, hr, by omega, hc2⟩

/-- Claim C10: in every frame-allocator state reachable from init(l, r) with
l <= r (and r a usize) by non-aborting alloc, dealloc and alloc_contig calls,
the cursor never exceeds end_page, every recycle-list entry is strictly below
the cursor, and the recycle-list entries are pairwise distinct. -/
theorem frame_reach_invariant (a : StackFrameAllocator) (h : FrameReach a) :
    a.current ≤ a.end_ ∧ (∀ p ∈ a.recycled, p < a.current) ∧
      a.recycled.Nodup := by
  have main : a.current ≤ a.end_ ∧ a.end_ < 2 ^ 64 ∧
      (∀ p ∈ a.recycled, p < a.current) ∧ a.recycled.Nodup := by
    induction h with
    | init l r hlr hr =>
      exact ⟨hlr, hr, by simp [StackFrameAllocator.init], by
        simp [StackFrameAllocator.init]⟩
    | alloc a res a2 hre halloc ih =>
      obtain ⟨h1, h2, h3, h4⟩ := ih
      obtain ⟨cur, e, rec⟩ := a
      simp only at h1 h2 h3 h4
      rcases rec with _ | ⟨p0, rest⟩
      · by_cases hce : cur = e
        · simp only [StackFrameAllocator.alloc, if_pos hce] at halloc
          obtain ⟨-, ha2⟩ := Prod.mk.injEq .. ▸ Option.some.inj halloc
          rw [← ha2]
          exact ⟨h1, h2, h3, h4⟩
        · simp only [StackFrameAllocator.alloc, if_neg hce] at halloc
          cases hp : physPageNumFromUsize cur with
          | none => rw [hp] at halloc; simp at halloc
          | some q =>
            rw [hp] at halloc
            simp only [Option.map_some'] at halloc
            obtain ⟨-, ha2⟩ := Prod.mk.injEq .. ▸ Option.some.inj halloc
            rw [← ha2]
            have hmod : (cur + 1) % 2 ^ 64 = cur + 1 := Nat.mod_eq_of_lt (by omega)
            refine ⟨?_, h2, by simp, by simp⟩
            simp only [hmod]
            omega
      · simp only [StackFrameAllocator.alloc] at halloc
        cases hp : physPageNumFromUsize p0 with
        | none => rw [hp] at halloc; simp at halloc
        | some q =>
          rw [hp] at halloc
          simp only [Option.map_some'] at halloc
          obtain ⟨-, ha2⟩ := Prod.mk.injEq .. ▸ Option.some.inj halloc
          rw [← ha2]
          refine ⟨h1, h2, ?_, (List.nodup_cons.mp h4).2⟩
          intro p hp2
          exact h3 p (List.mem_cons_of_mem _ hp2)
    | dealloc a p a2 hre hde ih =>
      obtain ⟨h1, h2, h3, h4⟩ := ih
      unfold StackFrameAllocator.dealloc at hde
      by_cases hc : p ≥ a.current ∨ p ∈ a.recycled
      · rw [if_pos hc] at hde
        exact absurd hde (by simp)
      · rw [if_neg hc] at hde
        push_neg at hc
        rw [← Option.some.inj hde]
        refine ⟨h1, h2, ?_, List.nodup_cons.mpr ⟨hc.2, h4⟩⟩
        intro q hq
        rcases List.mem_cons.mp hq with hq | hq
        · exact hq ▸ hc.1
        · exact h3 q hq
    | allocContig a n l a2 hre hac ih =>
      obtain ⟨h1, h2, h3, h4⟩ := ih
      obtain ⟨cur, e, rec⟩ := a
      simp only at h1 h2 h3 h4
      obtain ⟨he, hr, hc1, hc2⟩ :=
        allocContigF_reach n cur e rec l a2 h2 h1 hac
      refine ⟨by rw [he]; exact hc2, by rw [he]; exact h2, ?_, by rw [hr]; exact h4⟩
      intro p hp
      rw [hr] at hp
      have := h3 p hp
      omega
  exact ⟨main.1, main.2.2.1, main.2.2.2⟩

/-- Witness for frame_reach_invariant: the state reached from init 2 5 by one
alloc (the cursor path). -/
theorem frame_reach_invariant_w :
    (StackFrameAllocator.mk 3 5 []).current ≤ (StackFrameAllocator.mk 3 5 []).end_ ∧
    (∀ p ∈ (StackFrameAllocator.mk 3 5 []).recycled,
      p < (StackFrameAllocator.mk 3 5 []).current) ∧
    (StackFrameAllocator.mk 3 5 []).recycled.Nodup :=
  frame_reach_invariant (StackFrameAllocator.mk 3 5 [])
    (FrameReach.alloc (StackFrameAllocator.init 2 5) (some 2)
      (StackFrameAllocator.mk 3 5 [])
      (FrameReach.init 2 5 (by omega) (by norm_num))
      (by decide))

/-- Claim C5 (code bug): dealloc's coalescing loop runs while the class is
less than 32, and on finding a buddy at class 31 it increments the class to
32 and pushes onto free_list[32] - an out-of-bounds array index (the upstream
buddy_system_allocator crate bounds this loop by len() - 1).  Concretely:
after adding the region [3 * 2^31, 4 * 2^31) the heap holds one free block of
class 31 at address 3 * 2^31; deallocating the block 2^32 with a 2^31-byte
layout finds that buddy (2^32 xor 2^31 = 3 * 2^31) at class 31 and the
attempted promotion to class 32 panics, modelled here as none. -/
theorem buddy_dealloc_class31_oob :
    ∃ h1 : Heap, Heap.addToHeap Heap.new (3 * 2 ^ 31) (4 * 2 ^ 31) = some h1 ∧
      h1.free_list 31 = [3 * 2 ^ 31] ∧
      h1.dealloc (2 ^ 32) (2 ^ 31) 1 = none := by
  refine ⟨_, rfl, ?_, ?_⟩ <;> rfl

/-! Carve invariant: the free lists produced by add_to_heap are aligned,
bounded, and contain no same-class buddy pairs. -/

theorem min_two_pow (x y : Nat) : min (2 ^ x) (2 ^ y) = 2 ^ min x y := by
  rcases le_total x y with h | h
  · rw [min_eq_left (Nat.pow_le_pow_right (by omega) h), min_eq_left h]
  · rw [min_eq_right (Nat.pow_le_pow_right (by omega) h), min_eq_right h]

theorem ctz_lt_64 {n : Nat} (h1 : 0 < n) (h2 : n < 2 ^ 64) : ctz n < 64 := by
  have hd := ctz_dvd n h1 h2
  have hle : 2 ^ ctz n ≤ n := Nat.le_of_dvd h1 hd
  by_contra hge
  have : (2:Nat) ^ 64 ≤ 2 ^ ctz n := Nat.pow_le_pow_right (by omega) (by omega)
  omega

theorem ctz_zero : ctz 0 = 64 := by decide

theorem carveLoopF_inv : ∀ (fuel : Nat) (fl : Nat → List Nat)
    (cur e total : Nat) (fl2 : Nat → List Nat) (tot2 : Nat),
    e ≤ 2 ^ 64 → cur ≤ e → CarveInv e cur fl →
    carveLoopF fuel fl cur e total = some (fl2, tot2) →
    CarveInv e e fl2 := by
  intro fuel
  induction fuel with
  | zero =>
    intro fl cur e total fl2 tot2 he hc hinv hrun
    simp [carveLoopF] at hrun
  | succ fuel ih =>
    intro fl cur e total fl2 tot2 he hc hinv hrun
    simp only [carveLoopF] at hrun
    by_cases hloop : cur + 8 ≤ e
    · rw [if_pos hloop] at hrun
      set sz := min (lowbit64 cur) (prev_power_of_two (e - cur)) with hsz
      set c := ctz sz with hcdef
      by_cases hc32 : c < 32
      · rw [if_pos hc32] at hrun
        have hcur0 : 0 < cur := by
          rcases Nat.eq_zero_or_pos cur with h0 | h
          · exfalso
            rw [h0, lowbit64_zero] at hsz
            simp at hsz
            rw [hsz, ctz_zero] at hcdef
            omega
          · exact h
        have hcurlt : cur < 2 ^ 64 := by omega
        have hlow : lowbit64 cur = 2 ^ ctz cur := lowbit64_eq cur hcur0 hcurlt
        have hec1 : 0 < e - cur := by omega
        have hec2 : e - cur < 2 ^ 64 := by omega
        obtain ⟨hpeq, hple, hplt⟩ := prev_power_of_two_spec (e - cur) hec1 hec2
        have hszpow : sz = 2 ^ min (ctz cur) (bitLenF 64 (e - cur) - 1) := by
          rw [hsz, hlow, hpeq, min_two_pow]
        have hctzlt : ctz cur < 64 := ctz_lt_64 hcur0 hcurlt
        have hminlt : min (ctz cur) (bitLenF 64 (e - cur) - 1) < 64 := by
          have := min_le_left (ctz cur) (bitLenF 64 (e - cur) - 1)
          omega
        have hceq : c = min (ctz cur) (bitLenF 64 (e - cur) - 1) := by
          rw [hcdef, hszpow, ctz_two_pow _ hminlt]
        have hsz2 : sz = 2 ^ c := by rw [hceq, ← hszpow]
        have hszpos : 0 < sz := by rw [hsz2]; exact Nat.two_pow_pos c
        have hszle : sz ≤ e - cur := le_trans (min_le_right _ _) hple
        have hdvd : 2 ^ c ∣ cur := by
          have hcle : c ≤ ctz cur := by
            rw [hceq]
            exact min_le_left _ _
          exact (pow_dvd_pow 2 hcle).trans (ctz_dvd cur hcur0 hcurlt)
        have hps : (2:Nat) ^ (c + 1) = 2 * 2 ^ c := by rw [pow_succ]; ring
        have hpc := Nat.two_pow_pos c
        have hnobuddy : (cur ^^^ 2 ^ c) ∉ fl c := by
          by_cases hdv1 : 2 ^ (c + 1) ∣ cur
          · rw [xor_two_pow_of_succ_dvd hdv1]
            intro hmem
            obtain ⟨-, hbd, -, -⟩ := hinv c (cur + 2 ^ c) hmem
            omega
          · rw [xor_two_pow_of_not_succ_dvd hdvd hdv1]
            intro hmem
            obtain ⟨hdvb, hbd, -, hbeq⟩ := hinv c (cur - 2 ^ c) hmem
            have h2c : (2:Nat) ^ c ≤ cur := Nat.le_of_dvd hcur0 hdvd
            have hbpos : 0 < cur - 2 ^ c := by
              rcases Nat.eq_zero_or_pos (cur - 2 ^ c) with h0 | h
              · exfalso
                rw [h0, lowbit64_zero] at hbeq
                simp at hbeq
              · exact h
            have hbdv : 2 ^ (c + 1) ∣ cur - 2 ^ c := by
              obtain ⟨m, hm⟩ := hdvd
              have hmodd : m % 2 = 1 := by
                by_contra hmev
                have hm2 : m = 2 * (m / 2) := by omega
                refine hdv1 ⟨m / 2, ?_⟩
                rw [hm, hps]
                conv_lhs => rw [hm2]
                ring
              refine ⟨(m - 1) / 2, ?_⟩
              have hm1 : m - 1 = 2 * ((m - 1) / 2) := by omega
              rw [hm, hps]
              have : 2 ^ c * m - 2 ^ c = 2 ^ c * (m - 1) := by
                rw [Nat.mul_sub]
                ring_nf
              rw [this]
              conv_lhs => rw [hm1]
              ring
            have hblt : cur - 2 ^ c < 2 ^ 64 := by omega
            have hctzb : c + 1 ≤ ctz (cur - 2 ^ c) :=
              le_ctz_of_pow_dvd hbdv hbpos hblt
            have hlowb : lowbit64 (cur - 2 ^ c) = 2 ^ ctz (cur - 2 ^ c) :=
              lowbit64_eq _ hbpos hblt
            have hprevb : prev_power_of_two (e - (cur - 2 ^ c)) = 2 ^ c := by
              by_cases hAB : lowbit64 (cur - 2 ^ c) ≤
                  prev_power_of_two (e - (cur - 2 ^ c))
              · rw [min_eq_left hAB, hlowb] at hbeq
                have := Nat.pow_right_injective (le_refl 2) hbeq
                omega
              · rw [min_eq_right (by omega)] at hbeq
                exact hbeq.symm
            have hebpos : 0 < e - (cur - 2 ^ c) := by omega
            have heblt : e - (cur - 2 ^ c) < 2 ^ 64 := by omega
            have hlt2 : e - (cur - 2 ^ c) < 2 ^ (c + 1) :=
              lt_of_prev_power_of_two_eq hebpos heblt hprevb
            have hfinal : cur + sz ≤ e := by omega
            rw [hsz2] at hfinal
            omega
        have hinv2 : CarveInv e (cur + sz)
            (fun k => if k = c then cur :: fl k else fl k) := by
          intro k a hmem
          by_cases hk : k = c
          · subst hk
            simp only [if_pos rfl] at hmem
            rcases List.mem_cons.mp hmem with ha | ha
            · subst ha
              refine ⟨hdvd, by omega, ?_, by rw [← hsz, hsz2]⟩
              simp only [if_pos rfl]
              intro hin
              rcases List.mem_cons.mp hin with hx | hx
              · exact xor_two_pow_ne_self a c hx
              · exact hnobuddy hx
            · obtain ⟨d1, d2, d3, d4⟩ := hinv c a ha
              refine ⟨d1, by omega, ?_, d4⟩
              simp only [if_pos rfl]
              intro hin
              rcases List.mem_cons.mp hin with hx | hx
              · apply hnobuddy
                have hxx : cur ^^^ 2 ^ c = a := by
                  rw [← hx]
                  exact Nat.xor_cancel_right _ _
                rw [hxx]
                exact ha
              · exact d3 hx
          · simp only [if_neg hk] at hmem
            obtain ⟨d1, d2, d3, d4⟩ := hinv k a hmem
            refine ⟨d1, by omega, ?_, d4⟩
            simp only [if_neg hk]
            exact d3
        exact ih _ (cur + sz) e _ fl2 tot2 he (by omega) hinv2 hrun
      · rw [if_neg hc32] at hrun
        exact absurd hrun (by simp)
    · rw [if_neg hloop] at hrun
      obtain ⟨hfl, -⟩ := Prod.mk.injEq .. ▸ Option.some.inj hrun
      rw [← hfl]
      intro k a hm
      obtain ⟨d1, d2, d3, d4⟩ := hinv k a hm
      exact ⟨d1, by omega, d3, d4⟩

theorem addToHeap_new_WF {S E : Nat} {h1 : Heap} (hE : E < 2 ^ 64)
    (hadd : Heap.addToHeap Heap.new S E = some h1) : HeapWF h1.free_list := by
  simp only [Heap.addToHeap] at hadd
  set s := ((S + 8 - 1) % 2 ^ 64) &&& (2 ^ 64 - 8) with hsdef
  set e := E &&& (2 ^ 64 - 8) with hedef
  have hele : e ≤ E := Nat.and_le_left
  by_cases hse : s ≤ e
  · rw [if_pos hse] at hadd
    cases hrun : carveLoopF (e + 1) Heap.new.free_list s e 0 with
    | none => rw [hrun] at hadd; exact absurd hadd (by simp)
    | some p =>
      rw [hrun] at hadd
      have hinv := carveLoopF_inv (e + 1) Heap.new.free_list s e 0 p.1 p.2
        (by omega) hse (by intro c a hm; simp [Heap.new] at hm)
        (by rw [hrun])
      have hfl : h1.free_list = p.1 := by
        rw [← Option.some.inj hadd]
      rw [hfl]
      intro c a hm
      obtain ⟨d1, d2, d3, -⟩ := hinv c a hm
      exact ⟨d1, by omega, d3⟩
  · rw [if_neg hse] at hadd
    exact absurd hadd (by simp)

theorem findFirstF_spec : ∀ (fuel : Nat) (fl : Nat → List Nat) (c i : Nat),
    findFirstF fuel fl c = some i →
    c ≤ i ∧ i < 32 ∧ fl i ≠ [] ∧ ∀ k, c ≤ k → k < i → fl k = [] := by
  intro fuel
  induction fuel with
  | zero => intro fl c i h; simp [findFirstF] at h
  | succ fuel ih =>
    intro fl c i h
    simp only [findFirstF] at h
    by_cases hc : c < 32
    · rw [if_pos hc] at h
      by_cases hne : fl c ≠ []
      · rw [if_pos hne] at h
        obtain rfl := Option.some.inj h
        exact ⟨le_refl _, hc, hne, fun k hk1 hk2 => by omega⟩
      · rw [if_neg hne] at h
        obtain ⟨h1, h2, h3, h4⟩ := ih fl (c + 1) i h
        refine ⟨by omega, h2, h3, ?_⟩
        intro k hk1 hk2
        rcases Nat.eq_or_lt_of_le hk1 with hk | hk
        · rw [← hk]
          push_neg at hne
          exact hne
        · exact h4 k (by omega) hk2
    · rw [if_neg hc] at h
      simp at h

theorem splitState_zero (fl : Nat → List Nat) (cls B : Nat) (rest : List Nat) :
    splitState fl cls 0 B rest = fl := by
  funext k
  simp only [splitState]
  have h3 : ¬(cls < k ∧ k < cls + 0) := by omega
  simp [h3]
  intro h4 h5
  omega

theorem splitDownF_spec : ∀ (n : Nat) (fl : Nat → List Nat) (cls B : Nat)
    (rest : List Nat), fl (cls + n) = B :: rest →
    (∀ k, cls ≤ k → k < cls + n → fl k = []) →
    B + 2 ^ (cls + n) ≤ 2 ^ 64 →
    splitDownF n fl cls = .ok (splitState fl cls n B rest) := by
  intro n
  induction n with
  | zero =>
    intro fl cls B rest hhead hemp hbound
    simp only [splitDownF, splitState_zero]
  | succ n ih =>
    intro fl cls B rest hhead hemp hbound
    have hhead2 : fl (cls + n + 1) = B :: rest := by
      rw [show cls + n + 1 = cls + (n + 1) by omega]
      exact hhead
    have hble : B + 2 ^ (cls + n) < 2 ^ 64 := by
      have : (2:Nat) ^ (cls + n) < 2 ^ (cls + n + 1) :=
        Nat.pow_lt_pow_right (by omega) (by omega)
      have hb2 : B + 2 ^ (cls + (n + 1)) ≤ 2 ^ 64 := hbound
      rw [show cls + (n + 1) = cls + n + 1 by omega] at hb2
      omega
    simp only [splitDownF, hhead2]
    have hmod : (B + 2 ^ (cls + n + 1 - 1)) % 2 ^ 64 = B + 2 ^ (cls + n) := by
      rw [show cls + n + 1 - 1 = cls + n by omega]
      exact Nat.mod_eq_of_lt hble
    rw [hmod]
    set fl1 := fun k => if k = cls + n + 1 then rest else fl k with hfl1
    set fl2 := fun k =>
      if k = cls + n + 1 - 1 then B :: (B + 2 ^ (cls + n)) :: fl1 (cls + n + 1 - 1)
      else fl1 k with hfl2
    have hj1 : cls + n + 1 - 1 = cls + n := by omega
    have hfl2head : fl2 (cls + n) = B :: [B + 2 ^ (cls + n)] := by
      rw [hfl2]
      simp only [hj1, if_pos rfl]
      have : fl1 (cls + n) = [] := by
        rw [hfl1]
        simp only [if_neg (by omega : ¬ cls + n = cls + n + 1)]
        exact hemp (cls + n) (by omega) (by omega)
      rw [this]
      simp
    have hfl2emp : ∀ k, cls ≤ k → k < cls + n → fl2 k = [] := by
      intro k hk1 hk2
      rw [hfl2]
      simp only [hj1, if_neg (by omega : ¬ k = cls + n)]
      rw [hfl1]
      simp only [if_neg (by omega : ¬ k = cls + n + 1)]
      exact hemp k hk1 (by omega)
    rw [ih fl2 cls B [B + 2 ^ (cls + n)] hfl2head hfl2emp (by omega)]
    congr 1
    funext k
    simp only [splitState]
    by_cases hk1 : k = cls + n + 1
    · have hc1 : ¬(n ≠ 0 ∧ k = cls + n) := by omega
      have hc2 : ¬(n ≠ 0 ∧ k = cls) := by omega
      have hc3 : ¬(cls < k ∧ k < cls + n) := by omega
      have hd1 : (n + 1 ≠ 0 ∧ k = cls + (n + 1)) := by omega
      simp only [if_neg hc1, if_neg hc2, if_neg hc3, if_pos hd1]
      rw [hfl2]
      simp only [hj1, if_neg (by omega : ¬ k = cls + n)]
      rw [hfl1]
      simp only [if_pos hk1]
    · by_cases hk2 : k = cls + n
      · by_cases hn0 : n = 0
        · have hc1 : ¬(n ≠ 0 ∧ k = cls + n) := by omega
          have hc2 : ¬(n ≠ 0 ∧ k = cls) := by omega
          have hc3 : ¬(cls < k ∧ k < cls + n) := by omega
          have hd1 : ¬(n + 1 ≠ 0 ∧ k = cls + (n + 1)) := by omega
          have hd2 : (n + 1 ≠ 0 ∧ k = cls) := by omega
          simp only [if_neg hc1, if_neg hc2, if_neg hc3, if_neg hd1, if_pos hd2]
          rw [hfl2]
          simp only [hj1, if_pos hk2]
          have : fl1 (cls + n) = [] := by
            rw [hfl1]
            simp only [if_neg (by omega : ¬ cls + n = cls + n + 1)]
            exact hemp (cls + n) (by omega) (by omega)
          rw [this]
          have hcn : cls + n = cls := by omega
          rw [hcn]
        · have hc1 : (n ≠ 0 ∧ k = cls + n) := by omega
          have hd1 : ¬(n + 1 ≠ 0 ∧ k = cls + (n + 1)) := by omega
          have hd2 : ¬(n + 1 ≠ 0 ∧ k = cls) := by omega
          have hd3 : (cls < k ∧ k < cls + (n + 1)) := by omega
          simp only [if_pos hc1, if_neg hd1, if_neg hd2, if_pos hd3]
          rw [hk2]
      · by_cases hk3 : k = cls
        · have hn0 : n ≠ 0 := by omega
          have hc1 : ¬(n ≠ 0 ∧ k = cls + n) := by omega
          have hc2 : (n ≠ 0 ∧ k = cls) := by omega
          have hd1 : ¬(n + 1 ≠ 0 ∧ k = cls + (n + 1)) := by omega
          have hd2 : (n + 1 ≠ 0 ∧ k = cls) := by omega
          simp only [if_neg hc1, if_pos hc2, if_neg hd1, if_pos hd2]
        · by_cases hk4 : cls < k ∧ k < cls + n
          · have hc1 : ¬(n ≠ 0 ∧ k = cls + n) := by omega
            have hc2 : ¬(n ≠ 0 ∧ k = cls) := by omega
            have hd1 : ¬(n + 1 ≠ 0 ∧ k = cls + (n + 1)) := by omega
            have hd2 : ¬(n + 1 ≠ 0 ∧ k = cls) := by omega
            have hd3 : (cls < k ∧ k < cls + (n + 1)) := by omega
            simp only [if_neg hc1, if_neg hc2, if_pos hk4, if_neg hd1,
              if_neg hd2, if_pos hd3]
          · have hc1 : ¬(n ≠ 0 ∧ k = cls + n) := by omega
            have hc2 : ¬(n ≠ 0 ∧ k = cls) := by omega
            have hd1 : ¬(n + 1 ≠ 0 ∧ k = cls + (n + 1)) := by omega
            have hd2 : ¬(n + 1 ≠ 0 ∧ k = cls) := by omega
            have hd3 : ¬(cls < k ∧ k < cls + (n + 1)) := by omega
            simp only [if_neg hc1, if_neg hc2, if_neg hk4, if_neg hd1,
              if_neg hd2, if_neg hd3]
            rw [hfl2]
            simp only [hj1, if_neg (by omega : ¬ k = cls + n)]
            rw [hfl1]
            simp only [if_neg hk1]

theorem coalState_at_c (fl : Nat → List Nat) (i c B : Nat) (rest : List Nat)
    (h : c < i) : coalState fl i c B rest c = [B, B + 2 ^ c] := by
  unfold coalState
  rw [if_pos rfl, if_pos h]

theorem coalState_at_self (fl : Nat → List Nat) (i B : Nat) (rest : List Nat) :
    coalState fl i i B rest i = B :: rest := by
  unfold coalState
  rw [if_pos rfl, if_neg (lt_irrefl i)]

theorem coalState_mid (fl : Nat → List Nat) (i c B : Nat) (rest : List Nat)
    (k : Nat) (h1 : c < k) (h2 : k < i) :
    coalState fl i c B rest k = [B + 2 ^ k] := by
  unfold coalState
  rw [if_neg (by omega : ¬ k = c), if_pos ⟨h1, h2⟩]

theorem coalState_at_i (fl : Nat → List Nat) (i c B : Nat) (rest : List Nat)
    (h : c < i) : coalState fl i c B rest i = rest := by
  unfold coalState
  rw [if_neg (by omega : ¬ i = c), if_neg (by omega : ¬ (c < i ∧ i < i)),
    if_pos ⟨rfl, h⟩]

theorem coalState_other (fl : Nat → List Nat) (i c B : Nat) (rest : List Nat)
    (k : Nat) (h1 : ¬ k = c) (h2 : ¬(c < k ∧ k < i)) (h3 : ¬(k = i ∧ c < i)) :
    coalState fl i c B rest k = fl k := by
  unfold coalState
  rw [if_neg h1, if_neg h2, if_neg h3]

theorem coalesceF_restore : ∀ (m fuel : Nat) (fl : Nat → List Nat)
    (cls i B : Nat) (rest : List Nat), cls + m = i → i < 32 →
    2 ^ i ∣ B → (B ^^^ 2 ^ i) ∉ fl i → fl i = B :: rest →
    (∀ k, cls ≤ k → k < i → fl k = []) → m + 2 ≤ fuel →
    coalesceF fuel (coalState fl i cls B rest) B cls = some fl := by
  intro m
  induction m with
  | zero =>
    intro fuel fl cls i B rest hci h32 hdvd hnb hhead hemp hfuel
    have hcls : cls = i := by omega
    subst hcls
    obtain ⟨f, rfl⟩ : ∃ f, fuel = f + 1 := ⟨fuel - 1, by omega⟩
    simp only [coalesceF]
    rw [if_pos h32]
    have hmem : (B ^^^ 2 ^ cls) ∉ coalState fl cls cls B rest cls := by
      rw [coalState_at_self, ← hhead]
      exact hnb
    rw [if_neg hmem]
    congr 1
    funext k
    by_cases hk : k = cls
    · subst hk
      rw [coalState_at_self, hhead]
    · rw [coalState_other fl cls cls B rest k hk (by omega) (by omega)]
  | succ m ih =>
    intro fuel fl cls i B rest hci h32 hdvd hnb hhead hemp hfuel
    have hcls_lt : cls < i := by omega
    obtain ⟨f, rfl⟩ : ∃ f, fuel = f + 1 := ⟨fuel - 1, by omega⟩
    simp only [coalesceF]
    rw [if_pos (by omega : cls < 32)]
    have hbuddy : B ^^^ 2 ^ cls = B + 2 ^ cls :=
      xor_two_pow_of_succ_dvd ((pow_dvd_pow 2 (by omega)).trans hdvd)
    have hpc := Nat.two_pow_pos cls
    have hne : ¬ B = B + 2 ^ cls := by omega
    have hmem : (B ^^^ 2 ^ cls) ∈ coalState fl i cls B rest cls := by
      rw [hbuddy, coalState_at_c fl i cls B rest hcls_lt]
      simp
    rw [if_pos hmem]
    have herase : ((coalState fl i cls B rest cls).erase (B ^^^ 2 ^ cls)).tail
        = [] := by
      rw [hbuddy, coalState_at_c fl i cls B rest hcls_lt]
      simp [List.erase_cons, hne]
    have hmin : min B (B ^^^ 2 ^ cls) = B := by
      rw [hbuddy]
      exact min_eq_left (by omega)
    rw [if_pos (by omega : cls + 1 < 32)]
    rw [herase, hmin]
    have hstep : (fun k =>
        if k = cls + 1 then
          B :: (if k = cls then [] else coalState fl i cls B rest k)
        else if k = cls then [] else coalState fl i cls B rest k)
        = coalState fl i (cls + 1) B rest := by
      funext k
      by_cases hk1 : k = cls + 1
      · rw [if_pos hk1, if_neg (by omega : ¬ k = cls)]
        by_cases hlt : cls + 1 < i
        · rw [hk1, coalState_mid fl i cls B rest (cls + 1) (by omega) hlt]
          rw [coalState_at_c fl i (cls + 1) B rest hlt]
        · have hieq : cls + 1 = i := by omega
          rw [hk1, hieq, coalState_at_i fl i cls B rest hcls_lt]
          rw [coalState_at_self fl i B rest]
      · rw [if_neg hk1]
        by_cases hk2 : k = cls
        · rw [if_pos hk2]
          rw [coalState_other fl i (cls + 1) B rest k (by omega)
            (by omega) (by omega)]
          rw [hk2]
          exact (hemp cls (by omega) (by omega)).symm
        · rw [if_neg hk2]
          by_cases hk3 : cls < k ∧ k < i
          · rw [coalState_mid fl i cls B rest k hk3.1 hk3.2]
            rw [coalState_mid fl i (cls + 1) B rest k (by omega) hk3.2]
          · by_cases hk4 : k = i
            · rw [hk4, coalState_at_i fl i cls B rest hcls_lt]
              by_cases hlt : cls + 1 < i
              · rw [coalState_at_i fl i (cls + 1) B rest hlt]
              · omega
            · rw [coalState_other fl i cls B rest k hk2 hk3 (by omega)]
              rw [coalState_other fl i (cls + 1) B rest k (by omega)
                (by omega) (by omega)]
    rw [hstep]
    exact ih f fl (cls + 1) i B rest (by omega) h32 hdvd hnb hhead
      (fun k hk1 hk2 => hemp k (by omega) hk2) (by omega)

/-- Claim C4: starting from a fresh heap, after add_to_heap(S, E) a single
successful alloc immediately followed by a dealloc of the returned block with
the same layout restores the free lists exactly (full coalescing back to the
original serialisation). -/
theorem buddy_roundtrip (S E size0 align : Nat) (hE : E < 2 ^ 64)
    (h1 : Heap) (hadd : Heap.addToHeap Heap.new S E = some h1)
    (B : Nat) (h2 : Heap) (halloc : h1.alloc size0 align = some (some B, h2)) :
    ∃ h3, h2.dealloc B size0 align = some h3 ∧ h3.free_list = h1.free_list := by
  have hwf := addToHeap_new_WF hE hadd
  simp only [Heap.alloc] at halloc
  set sz := max (next_power_of_two size0) (max align 8) with hszdef
  set cls := ctz sz with hclsdef
  cases hfind : findFirstF 32 h1.free_list cls with
  | none => rw [hfind] at halloc; exact absurd halloc (by simp)
  | some i =>
    obtain ⟨hci, hi32, hine, hiemp⟩ := findFirstF_spec 32 h1.free_list cls i hfind
    have halloc2 : (match splitDownF (i - cls) h1.free_list cls with
        | Except.error fl1 => some (none, { h1 with free_list := fl1 })
        | Except.ok fl1 =>
          match fl1 cls with
          | [] => none
          | b :: rest =>
            if b = 0 then
              some (none,
                { h1 with free_list := fun k => if k = cls then rest else fl1 k })
            else
              some (some b,
                { h1 with
                    free_list := fun k => if k = cls then rest else fl1 k
                    user := (h1.user + size0) % 2 ^ 64
                    allocated := (h1.allocated + sz) % 2 ^ 64 }))
        = some (some B, h2) := by
      rw [← halloc, hfind]
    clear halloc
    cases hhead : h1.free_list i with
    | nil => exact absurd hhead hine
    | cons B0 rest =>
      obtain ⟨hdvdB, hbndB, hnbB⟩ := hwf i B0 (by rw [hhead]; simp)
      have hn : cls + (i - cls) = i := by omega
      have hsplit := splitDownF_spec (i - cls) h1.free_list cls B0 rest
        (by rw [hn]; exact hhead)
        (by intro k hk1 hk2; exact hiemp k hk1 (by omega))
        (by rw [hn]; exact hbndB)
      have hscls : splitState h1.free_list cls (i - cls) B0 rest cls =
          B0 :: (if i - cls = 0 then rest else [B0 + 2 ^ cls]) := by
        by_cases h0 : i - cls = 0
        · have hclsi : cls = i := by omega
          unfold splitState
          rw [if_neg (by omega : ¬(i - cls ≠ 0 ∧ cls = cls + (i - cls)))]
          rw [if_neg (by omega : ¬(i - cls ≠ 0 ∧ cls = cls))]
          rw [if_neg (by omega : ¬(cls < cls ∧ cls < cls + (i - cls)))]
          rw [if_pos h0, hclsi, hhead]
        · unfold splitState
          rw [if_neg (by omega : ¬(i - cls ≠ 0 ∧ cls = cls + (i - cls)))]
          rw [if_pos (by omega : i - cls ≠ 0 ∧ cls = cls)]
          rw [if_neg h0]
      have halloc3 : (match splitState h1.free_list cls (i - cls) B0 rest cls with
          | [] => none
          | b :: rest2 =>
            if b = 0 then
              some (none,
                { h1 with free_list := fun k => if k = cls then rest2
                    else splitState h1.free_list cls (i - cls) B0 rest k })
            else
              some (some b,
                { h1 with
                    free_list := fun k => if k = cls then rest2
                      else splitState h1.free_list cls (i - cls) B0 rest k
                    user := (h1.user + size0) % 2 ^ 64
                    allocated := (h1.allocated + sz) % 2 ^ 64 }))
          = some (some B, h2) := by
        rw [← halloc2, hsplit]
      clear halloc2
      have halloc4 : (if B0 = 0 then
            some (none,
              { h1 with free_list := fun k => if k = cls
                  then (if i - cls = 0 then rest else [B0 + 2 ^ cls])
                  else splitState h1.free_list cls (i - cls) B0 rest k })
          else
            some (some B0,
              { h1 with
                  free_list := fun k => if k = cls
                    then (if i - cls = 0 then rest else [B0 + 2 ^ cls])
                    else splitState h1.free_list cls (i - cls) B0 rest k
                  user := (h1.user + size0) % 2 ^ 64
                  allocated := (h1.allocated + sz) % 2 ^ 64 }))
          = some (some B, h2) := by
        rw [← halloc3, hscls]
      clear halloc3
      by_cases hB0 : B0 = 0
      · rw [if_pos hB0] at halloc4
        simp at halloc4
      · rw [if_neg hB0] at halloc4
        simp only [Option.some.injEq, Prod.mk.injEq] at halloc4
        obtain ⟨hB, hh2⟩ := halloc4
        subst hB
        subst hh2
        simp only [Heap.dealloc]
        rw [← hszdef, ← hclsdef]
        rw [if_pos (by omega : cls < 32)]
        have hstate : (fun k => if k = cls then
            B0 :: (if k = cls
              then (if i - cls = 0 then rest else [B0 + 2 ^ cls])
              else splitState h1.free_list cls (i - cls) B0 rest k)
            else (if k = cls
              then (if i - cls = 0 then rest else [B0 + 2 ^ cls])
              else splitState h1.free_list cls (i - cls) B0 rest k))
            = coalState h1.free_list i cls B0 rest := by
          funext k
          by_cases hk : k = cls
          · rw [if_pos hk, if_pos hk]
            by_cases h0 : i - cls = 0
            · have hclsi : cls = i := by omega
              rw [if_pos h0, hk, hclsi, coalState_at_self]
            · rw [if_neg h0, hk,
                coalState_at_c h1.free_list i cls B0 rest (by omega)]
          · rw [if_neg hk, if_neg hk]
            by_cases hk2 : k = i
            · have h0 : i - cls ≠ 0 := by omega
              unfold splitState
              rw [if_pos (by omega : i - cls ≠ 0 ∧ k = cls + (i - cls))]
              rw [hk2, coalState_at_i h1.free_list i cls B0 rest (by omega)]
            · by_cases hk3 : cls < k ∧ k < i
              · unfold splitState
                rw [if_neg (by omega : ¬(i - cls ≠ 0 ∧ k = cls + (i - cls)))]
                rw [if_neg (by omega : ¬(i - cls ≠ 0 ∧ k = cls))]
                rw [if_pos (by omega : cls < k ∧ k < cls + (i - cls))]
                rw [coalState_mid h1.free_list i cls B0 rest k hk3.1 hk3.2]
              · unfold splitState
                rw [if_neg (by omega : ¬(i - cls ≠ 0 ∧ k = cls + (i - cls)))]
                rw [if_neg (by omega : ¬(i - cls ≠ 0 ∧ k = cls))]
                rw [if_neg (by omega : ¬(cls < k ∧ k < cls + (i - cls)))]
                rw [coalState_other h1.free_list i cls B0 rest k hk hk3
                  (by omega)]
        rw [hstate]
        rw [coalesceF_restore (i - cls) 33 h1.free_list cls i B0 rest hn hi32
          hdvdB hnbB hhead
          (fun k hk1 hk2 => hiemp k hk1 (by omega)) (by omega)]
        exact ⟨_, rfl, rfl⟩

/-- Witness for buddy_roundtrip: the region [0x1000, 0x2000) carved into one
4096-byte block, a 100-byte 8-aligned alloc split down to class 7, then the
matching dealloc coalescing back. -/
theorem buddy_roundtrip_w :
    ∃ h1 B h2 h3, Heap.addToHeap Heap.new 0x1000 0x2000 = some h1 ∧
      h1.alloc 100 8 = some (some B, h2) ∧
      h2.dealloc B 100 8 = some h3 ∧ h3.free_list = h1.free_list := by
  have e1 : Heap.addToHeap Heap.new 0x1000 0x2000 =
      some ((Heap.addToHeap Heap.new 0x1000 0x2000).getD Heap.new) := rfl
  have e2 : ((Heap.addToHeap Heap.new 0x1000 0x2000).getD Heap.new).alloc 100 8 =
      some (some 4096,
        ((((Heap.addToHeap Heap.new 0x1000 0x2000).getD Heap.new).alloc
          100 8).getD (none, Heap.new)).2) := rfl
  obtain ⟨h3, e3, e4⟩ := buddy_roundtrip 0x1000 0x2000 100 8 (by norm_num)
    _ e1 4096 _ e2
  exact ⟨_, 4096, _, h3, e1, e2, e3, e4⟩

/-- Claim C2, counterexample: with an empty buddy heap (which cannot satisfy
the 4096-byte bulk request, as the second conjunct shows), Slabheap::alloc of
a 1-byte layout does not return a failure value: it panics (none models the
.unwrap() of the Err(AllocError) that Slab::allocate returned). -/
theorem slabheap_alloc_unwrap_counterexample :
    Heap.new.alloc (64 * 64) 4096 = some (none, Heap.new) ∧
    Slabheap.new.alloc 1 1 = none := by
  constructor
  · rfl
  · rfl

/-- Claim C2 (amended): when the Buddy Heap cannot satisfy a slab class's
bulk-chunk request, Slab::allocate returns the failure value Err(AllocError)
to its caller with the slab state unchanged; but its caller Slabheap::alloc
immediately unwraps that Err and panics, so the failure value never
propagates past Slab::allocate. -/
theorem slab_allocate_err (s : Slab) (bs : Nat) (buddy buddy2 : Heap)
    (hempty : s.free_block_list.list = [])
    (hfail : buddy.alloc (64 * bs) 4096 = some (none, buddy2)) :
    s.allocate bs buddy = .fail s buddy2 ∧
    (∀ sh : Slabheap, sh.slab64 = s → sh.buddy_heap = buddy →
      find_suitable_slab 1 = BlockSize.slab64B → bs = 64 → sh.alloc 1 1 = none) := by
  have hmain : s.allocate bs buddy = .fail s buddy2 := by
    obtain ⟨⟨len, lst⟩, tb⟩ := s
    simp only at hempty
    subst hempty
    simp only [Slab.allocate, hfail]
  refine ⟨hmain, ?_⟩
  intro sh h64 hbud hfs hbs
  subst hbs
  simp only [Slabheap.alloc, hfs, h64, hbud, hmain]

/-- Witness for slab_allocate_err: the empty 64-byte class over the empty
buddy heap. -/
theorem slab_allocate_err_w :
    (Slab.new 0 0 64).allocate 64 Heap.new = .fail (Slab.new 0 0 64) Heap.new ∧
    (∀ sh : Slabheap, sh.slab64 = Slab.new 0 0 64 → sh.buddy_heap = Heap.new →
      find_suitable_slab 1 = BlockSize.slab64B → (64:Nat) = 64 →
      sh.alloc 1 1 = none) :=
  slab_allocate_err (Slab.new 0 0 64) 64 Heap.new Heap.new rfl rfl

/-- Claim C3, counterexample: with the heap initialized over
[0x1000, 0x1000 + 8192), alloc(size = 100, align = 8) does not succeed:
it panics (none), because the bulk request of one 8192-byte chunk for the
128-byte class cannot be satisfied by the two 4096-byte buddy blocks. -/
theorem slab_scenario_counterexample :
    ∃ sh, Slabheap.new.init 0x1000 8192 = some sh ∧ sh.alloc 100 8 = none := by
  exact ⟨_, rfl, rfl⟩

/-- Claim C3 (amended): with the heap initialized over [0x1000, 0x1000+8192),
alloc(size = 100, align = 8) selects the 128-byte class, which requests one
bulk chunk of 64 x 128 = 8192 bytes from the Buddy Heap; the region was
carved into two 4096-byte blocks (the greedy carve cannot produce an 8192
block at address 0x1000), the class-13 request fails, and Slabheap::alloc
panics on the unwrapped AllocError instead of succeeding; no address is
returned and no counters are observable. -/
theorem slab_scenario_amended :
    find_suitable_slab 100 = BlockSize.slab128B ∧
    ∃ sh, Slabheap.new.init 0x1000 8192 = some sh ∧
      sh.buddy_heap.free_list 12 = [0x2000, 0x1000] ∧
      sh.buddy_heap.free_list 13 = [] ∧
      sh.buddy_heap.alloc (64 * 128) 4096 = some (none, sh.buddy_heap) ∧
      sh.alloc 100 8 = none := by
  exact ⟨rfl, _, rfl, rfl, rfl, rfl, rfl⟩

set_option maxRecDepth 100000 in
set_option maxHeartbeats 1000000 in
/-- Claim C6: starting from an empty 64-byte slab class over a buddy heap
provisioned with an 8 KiB region, the Nth 64-byte-class allocation issues
exactly one buddy request when N mod 64 = 1 and none otherwise, for all
1 <= N <= 128; each batch leaves 64 * ceil(N / 64) - N blocks on the class
list (one 4096-byte chunk sliced into 64 blocks, pushed before one is
popped), and after the 128-allocation run the buddy heap has served exactly
two 4096-byte requests (its user and allocated counters are both 8192). -/
theorem slab_bulk_growth :
    (runSlab64F 128 c6slab c6heap).isSome = true ∧
    c6finalHeap.user = 8192 ∧ c6finalHeap.allocated = 8192 ∧
    (∀ N, N < 129 → 1 ≤ N →
      (c6trace.getD (N - 1) (false, 0)).1 = decide (N % 64 = 1) ∧
      (c6trace.getD (N - 1) (false, 0)).2 = 64 * ((N + 63) / 64) - N) := by
  have htrace : c6trace = (List.range 128).map
      (fun k => (decide ((k + 1) % 64 = 1),
        64 * ((k + 1 + 63) / 64) - (k + 1))) := by
    decide
  refine ⟨by rfl, by rfl, by rfl, ?_⟩
  intro N h129 h1N
  rw [htrace]
  have hidx : N - 1 < 128 := by omega
  rw [List.getD_eq_getElem?_getD, List.getElem?_map, List.getElem?_range hidx]
  simp only [Option.map_some', Option.getD_some]
  have hN : N - 1 + 1 = N := by omega
  rw [hN]
  exact ⟨rfl, rfl⟩

/-- Witness for slab_bulk_growth at N = 65: the first allocation of the
second batch issues a buddy request and leaves 63 blocks. -/
theorem slab_bulk_growth_w :
    (runSlab64F 128 c6slab c6heap).isSome = true ∧
    (c6trace.getD 64 (false, 0)).1 = decide (65 % 64 = 1) ∧
    (c6trace.getD 64 (false, 0)).2 = 64 * ((65 + 63) / 64) - 65 := by
  obtain ⟨h1, h2, h3, h4⟩ := slab_bulk_growth
  obtain ⟨ha, hb⟩ := h4 65 (by norm_num) (by norm_num)
  exact ⟨h1, ha, hb⟩
